import Mathlib

/-!
# A type-erased callable container (`function<R(Args...)>`)

Shallow embedding of `function.h` and `function_traits.h`.

* C++ types a container is instantiated with are the elements of a type `Ty`; the
  compile-time facts the code asks of a type (`sizeof`, `alignof`,
  `std::is_nothrow_move_constructible`) are a `TypeTraits` record.
* `sizeof(void *)` and `alignof(void *)` are parameters (`SizeOfStorage`, `AlignOfStorage`).
* The free store is a list of slots; an address is an index into it, `new` appends a slot,
  `delete` empties one.  Both are counted.
* Container objects (`function<R(Args...)>`) live in a list of variables, so that an
  object has an identity (`this != &rhs`).
* Every method is a function on the machine state returning `Option`: `none` is undefined
  behaviour (dangling pointer, reading a cell at the wrong layout, using a dead object).
* A callable value is an object representation `V` tagged with its type; its call operator
  is `Env.call`, which may change the callable's own (`mutable`) state and the outside
  world `W`, and may throw an `E`.  It is the `const`-qualified call operator, the one
  `invoke` selects through `get_func()`.  Copy and move construction of a callable
  reproduce the value and do not throw; the free store is unbounded.
* Members that `function` never calls (the defaulted constructor `function_caller()` and
  `function_caller_base::get_func<Functor>()`) are not embedded.
-/

/-- The compile-time facts `fits_storage` asks of a type `T`. -/
structure TypeTraits where
  /-- The value of `sizeof(T)`. -/
  sizeof : Nat
  /-- The value of `alignof(T)`. -/
  alignof : Nat
  /-- The value of `std::is_nothrow_move_constructible<T>::value`. -/
  is_nothrow_move_constructible : Bool
deriving DecidableEq

namespace detail

/-- The variable template `template <class T> constexpr bool fits_storage =
sizeof(T) <= SizeOfStorage && alignof(T) % AlignOfStorage &&
std::is_nothrow_move_constructible<T>::value;`.
The middle operand is a `std::size_t` converted to `bool`: true iff non-zero. -/
def fits_storage (SizeOfStorage AlignOfStorage : Nat) (T : TypeTraits) : Bool :=
  decide (T.sizeof ≤ SizeOfStorage) && decide (T.alignof % AlignOfStorage ≠ 0) &&
    T.is_nothrow_move_constructible

/-- The eligibility test in the words of the specification: `size(T) ≤ cell_size`, the
alignment of `T` is compatible with the alignment of the cell (the cell's alignment is a
multiple of `alignof(T)`), and the move construction of `T` cannot throw. -/
def inline_eligible_spec (SizeOfStorage AlignOfStorage : Nat) (T : TypeTraits) : Bool :=
  decide (T.sizeof ≤ SizeOfStorage) && decide (AlignOfStorage % T.alignof = 0) &&
    T.is_nothrow_move_constructible

end detail


/-- A `Functor *`: either the address of the `m_storage` member of the caller object at a
free-store address (the cell read as a `Functor`), or a free-store object of its own. -/
inductive FunctorPtr
  | in_cell (caller : Nat)
  | on_heap (p : Nat)
deriving DecidableEq

/-- Contents of a `storage_t` cell (`std::aligned_storage<SizeOfStorage, AlignOfStorage>`):
nothing yet, a callable constructed in place, or the bytes of a `Functor *`. -/
inductive storage_t (Ty V : Type)
  | indeterminate
  | object (t : Ty) (v : V)
  | pointer (p : Nat)
deriving DecidableEq

/-- Objects on the free store: a `function_caller<Functor, R(Args...)>` (its dynamic type
and its `m_storage` member) or a `Functor` made by `new Functor(...)`. -/
inductive HeapObj (Ty V : Type)
  | caller (Functor : Ty) (m_storage : storage_t Ty V)
  | functor (Functor : Ty) (v : V)
deriving DecidableEq

/-- The container object `function<R(Args...)>`: its only member is
`std::unique_ptr<detail::function_caller_base<R(Args...)>> m_caller`, null or an address. -/
structure function where
  m_caller : Option Nat
deriving DecidableEq

/-- What `function::operator()` can throw: its own `bad_function_call`, or whatever the
stored callable throws. -/
inductive Thrown (E : Type)
  | bad_function_call
  | by_callable (e : E)
deriving DecidableEq

/-- The free store: its slots (`none` once released) and the numbers of `new` and `delete`
performed so far. -/
structure Heap (Ty V : Type) where
  mem : List (Option (HeapObj Ty V))
  news : Nat
  deletes : Nat
deriving DecidableEq

/-- Machine state: the container objects in scope (`none` once destroyed) and the free
store. -/
structure State (Ty V : Type) where
  vars : List (Option function)
  heap : Heap Ty V
deriving DecidableEq

/-- What the templates are instantiated with: the target's `sizeof(void *)` and
`alignof(void *)`, the traits of every callable type, and the call operator of every
callable type on the signature `R(Args...)` (`A` is the argument tuple). -/
structure Env (Ty V A R E W : Type) where
  SizeOfStorage : Nat
  AlignOfStorage : Nat
  traits : Ty → TypeTraits
  call : Ty → V → A → W → Except E R × V × W

/-- The default template argument `fits_small = fits_storage<Functor>` of `func_storage`. -/
def Env.fits_small {Ty V A R E W : Type} (M : Env Ty V A R E W) (Functor : Ty) : Bool :=
  detail.fits_storage M.SizeOfStorage M.AlignOfStorage (M.traits Functor)

namespace Heap

variable {Ty V : Type}

/-- The free store before anything is allocated. -/
def empty : Heap Ty V := ⟨[], 0, 0⟩

/-- The live free-store object at an address. -/
def at_ (h : Heap Ty V) (p : Nat) : Option (HeapObj Ty V) :=
  (h.mem[p]?).join

/-- The allocation of a `new` expression: a fresh address holding `o`. -/
def operator_new (h : Heap Ty V) (o : HeapObj Ty V) : Nat × Heap Ty V :=
  (h.mem.length, { h with mem := h.mem ++ [some o], news := h.news + 1 })

/-- Release of the live object at `p`; undefined when nothing lives there. -/
def operator_delete (h : Heap Ty V) (p : Nat) : Option (Heap Ty V) :=
  match h.at_ p with
  | some _ => some { h with mem := h.mem.set p none, deletes := h.deletes + 1 }
  | none => none

/-- Overwrite the live object at `p`. -/
def put (h : Heap Ty V) (p : Nat) (o : HeapObj Ty V) : Option (Heap Ty V) :=
  match h.at_ p with
  | some _ => some { h with mem := h.mem.set p (some o) }
  | none => none

/-- The `m_storage` member of the caller object at `self`. -/
def read_cell (h : Heap Ty V) (self : Nat) : Option (storage_t Ty V) :=
  match h.at_ self with
  | some (.caller _ s) => some s
  | _ => none

/-- Overwrite the `m_storage` member of the caller object at `self`. -/
def write_cell (h : Heap Ty V) (self : Nat) (s : storage_t Ty V) : Option (Heap Ty V) :=
  match h.at_ self with
  | some (.caller t _) => h.put self (.caller t s)
  | _ => none

/-- Read `*ptr` as an object of type `t`. -/
def load [DecidableEq Ty] (h : Heap Ty V) (t : Ty) : FunctorPtr → Option V
  | .in_cell c =>
    match h.read_cell c with
    | some (.object u v) => if u = t then some v else none
    | _ => none
  | .on_heap p =>
    match h.at_ p with
    | some (.functor u v) => if u = t then some v else none
    | _ => none

/-- Write `v` to the object of type `t` at `ptr`. -/
def store [DecidableEq Ty] (h : Heap Ty V) (t : Ty) (ptr : FunctorPtr) (v : V) :
    Option (Heap Ty V) :=
  match h.load t ptr with
  | none => none
  | some _ =>
    match ptr with
    | .in_cell c => h.write_cell c (.object t v)
    | .on_heap p => h.put p (.functor t v)

end Heap

namespace State

variable {Ty V : Type}

/-- The state before anything is constructed. -/
def empty : State Ty V := ⟨[], Heap.empty⟩

/-- The live container object number `i`. -/
def var (σ : State Ty V) (i : Nat) : Option function :=
  (σ.vars[i]?).join

/-- Assign to the members of container object `i`. -/
def set_var (σ : State Ty V) (i : Nat) (f : function) : State Ty V :=
  { σ with vars := σ.vars.set i (some f) }

/-- A new container object comes into scope. -/
def push_var (σ : State Ty V) (f : function) : Nat × State Ty V :=
  (σ.vars.length, { σ with vars := σ.vars ++ [some f] })

/-- The lifetime of container object `i` ends. -/
def end_var (σ : State Ty V) (i : Nat) : State Ty V :=
  { σ with vars := σ.vars.set i none }

end State

section methods

variable {Ty V A R E W : Type} [DecidableEq Ty]

namespace detail

/-- The static member `func_storage::functor_from_storage<is_const>(storage)`, for the cell
of the caller object at `self`.  With `fits_small` it is the address of the cell
itself; otherwise the cell is read as a `Functor *`. -/
def func_storage.functor_from_storage (M : Env Ty V A R E W) (Functor : Ty) (self : Nat)
    (storage : storage_t Ty V) : Option FunctorPtr :=
  if M.fits_small Functor then
    some (.in_cell self)
  else
    match storage with
    | .pointer p => some (.on_heap p)
    | _ => none

/-- The member `func_storage::forward_assign(f)`: placement-new of the callable into the
cell, or `new Functor(f)` with the pointer written into the cell. -/
def func_storage.forward_assign (M : Env Ty V A R E W) (Functor : Ty) (self : Nat) (f : V)
    (h : Heap Ty V) : Option (Heap Ty V) :=
  if M.fits_small Functor then
    h.write_cell self (.object Functor f)
  else
    let (p, h1) := h.operator_new (.functor Functor f)
    h1.write_cell self (.pointer p)

/-- The constructors `func_storage(const Functor &)` and `func_storage(Functor &&)`. -/
def func_storage.ctor (M : Env Ty V A R E W) (Functor : Ty) (self : Nat) (func : V)
    (h : Heap Ty V) : Option (Heap Ty V) :=
  func_storage.forward_assign M Functor self func h

/-- The member `func_storage::get_func_ptr()`. -/
def func_storage.get_func_ptr (M : Env Ty V A R E W) (Functor : Ty) (self : Nat)
    (h : Heap Ty V) : Option FunctorPtr := do
  let m_storage ← h.read_cell self
  func_storage.functor_from_storage M Functor self m_storage

/-- The member `func_storage::get_func()`; the reference is modelled by the pointer that
is dereferenced. -/
def func_storage.get_func (M : Env Ty V A R E W) (Functor : Ty) (self : Nat)
    (h : Heap Ty V) : Option FunctorPtr := do
  let m_storage ← h.read_cell self
  func_storage.functor_from_storage M Functor self m_storage

/-- The member `func_storage::destruct()`: `get_func().~Functor()` for the inline layout,
`delete get_func_ptr()` otherwise. -/
def func_storage.destruct (M : Env Ty V A R E W) (Functor : Ty) (self : Nat)
    (h : Heap Ty V) : Option (Heap Ty V) :=
  if M.fits_small Functor then do
    let ref ← func_storage.get_func M Functor self h
    let _ ← h.load Functor ref
    h.write_cell self .indeterminate
  else do
    let ptr ← func_storage.get_func_ptr M Functor self h
    let _ ← h.load Functor ptr
    match ptr with
    | .on_heap p => h.operator_delete p
    | .in_cell _ => none

/-- The destructor `~func_storage()`. -/
def func_storage.dtor (M : Env Ty V A R E W) (Functor : Ty) (self : Nat)
    (h : Heap Ty V) : Option (Heap Ty V) :=
  func_storage.destruct M Functor self h

/-- The constructors `function_caller(const Functor &)` and `function_caller(Functor &&)`
run on the raw object at `self`: `m_storage(func)`. -/
def function_caller.ctor (M : Env Ty V A R E W) (Functor : Ty) (self : Nat) (func : V)
    (h : Heap Ty V) : Option (Heap Ty V) :=
  func_storage.ctor M Functor self func h

/-- The expression `new function_caller<Functor, R(Args...)>(func)`: allocation, then the
constructor. -/
def function_caller.new_ (M : Env Ty V A R E W) (Functor : Ty) (func : V)
    (h : Heap Ty V) : Option (Nat × Heap Ty V) :=
  let (self, h1) := h.operator_new (.caller Functor .indeterminate)
  (function_caller.ctor M Functor self func h1).map (fun h2 => (self, h2))

/-- The member `function_caller::get_func_ptr()`. -/
def function_caller.get_func_ptr (M : Env Ty V A R E W) (Functor : Ty) (self : Nat)
    (h : Heap Ty V) : Option FunctorPtr :=
  func_storage.get_func_ptr M Functor self h

/-- The member `function_caller::get_func()`. -/
def function_caller.get_func (M : Env Ty V A R E W) (Functor : Ty) (self : Nat)
    (h : Heap Ty V) : Option FunctorPtr :=
  func_storage.get_func M Functor self h

/-- The member `function_caller::invoke(args...)`:
`return m_storage.get_func()(std::forward<Args>(args)...);`.  The call operator runs on
the stored object, whose state after the call is the object's new value. -/
def function_caller.invoke (M : Env Ty V A R E W) (Functor : Ty) (self : Nat) (args : A)
    (h : Heap Ty V) (w : W) : Option (Except E R × Heap Ty V × W) := do
  let ref ← func_storage.get_func M Functor self h
  let v ← h.load Functor ref
  let (r, v1, w1) := M.call Functor v args w
  let h1 ← h.store Functor ref v1
  some (r, h1, w1)

/-- The member `function_caller::make_copy()`: `return new function_caller(get_func());`. -/
def function_caller.make_copy (M : Env Ty V A R E W) (Functor : Ty) (self : Nat)
    (h : Heap Ty V) : Option (Nat × Heap Ty V) := do
  let ref ← function_caller.get_func M Functor self h
  let v ← h.load Functor ref
  function_caller.new_ M Functor v h

/-- The destructor `~function_caller()`: destroys the member `m_storage`. -/
def function_caller.dtor (M : Env Ty V A R E W) (Functor : Ty) (self : Nat)
    (h : Heap Ty V) : Option (Heap Ty V) :=
  func_storage.dtor M Functor self h

/-- The dynamic type of the caller object at `self`, as virtual dispatch and
`dynamic_cast` see it. -/
def function_caller_base.dynamic_type (h : Heap Ty V) (self : Nat) : Option Ty :=
  match h.at_ self with
  | some (.caller Functor _) => some Functor
  | _ => none

/-- The virtual call `self->invoke(args...)`. -/
def function_caller_base.invoke (M : Env Ty V A R E W) (self : Nat) (args : A)
    (h : Heap Ty V) (w : W) : Option (Except E R × Heap Ty V × W) := do
  let Functor ← function_caller_base.dynamic_type h self
  function_caller.invoke M Functor self args h w

/-- The virtual call `self->make_copy()`. -/
def function_caller_base.make_copy (M : Env Ty V A R E W) (self : Nat)
    (h : Heap Ty V) : Option (Nat × Heap Ty V) := do
  let Functor ← function_caller_base.dynamic_type h self
  function_caller.make_copy M Functor self h

/-- The member template `function_caller_base::get_func_ptr<Functor>()`:
`dynamic_cast<Derived<Functor> *>(this)`, then the derived `get_func_ptr()` or `nullptr`.
`function_caller` is `final`, so the cast succeeds exactly on equal types. -/
def function_caller_base.get_func_ptr (M : Env Ty V A R E W) (Functor : Ty) (self : Nat)
    (h : Heap Ty V) : Option (Option FunctorPtr) := do
  let dyn ← function_caller_base.dynamic_type h self
  if dyn = Functor then
    (function_caller.get_func_ptr M Functor self h).map some
  else
    some none

/-- The expression `delete self` on a `function_caller_base *` (what `std::unique_ptr`
does with a non-null pointer): the virtual destructor, then the release of the object. -/
def function_caller_base.delete_ (M : Env Ty V A R E W) (self : Nat)
    (h : Heap Ty V) : Option (Heap Ty V) := do
  let Functor ← function_caller_base.dynamic_type h self
  let h1 ← function_caller.dtor M Functor self h
  h1.operator_delete self

end detail

namespace function

/-- The default constructor `function() = default;` of a new container object. -/
def default_ctor (σ : State Ty V) : Nat × State Ty V :=
  σ.push_var ⟨none⟩

/-- The copy constructor `function(function const & other)`:
`m_caller(other ? other.m_caller->make_copy() : nullptr)`. -/
def copy_ctor (M : Env Ty V A R E W) (other : Nat) (σ : State Ty V) :
    Option (Nat × State Ty V) := do
  let o ← σ.var other
  match o.m_caller with
  | some p => do
    let (q, h1) ← detail.function_caller_base.make_copy M p σ.heap
    some ({ σ with heap := h1 }.push_var ⟨some q⟩)
  | none => some (σ.push_var ⟨none⟩)

/-- The move constructor `function(function && other)`:
`m_caller(std::move(other.m_caller))`, which nulls the source pointer. -/
def move_ctor (other : Nat) (σ : State Ty V) : Option (Nat × State Ty V) := do
  let o ← σ.var other
  let σ1 := σ.set_var other ⟨none⟩
  some (σ1.push_var ⟨o.m_caller⟩)

/-- The converting constructor `template <typename T> function(T val)`:
`m_caller(std::make_unique<detail::function_caller<T, R(Args...)>>(std::move(val)))`. -/
def ctor (M : Env Ty V A R E W) (T : Ty) (val : V) (σ : State Ty V) :
    Option (Nat × State Ty V) := do
  let (p, h1) ← detail.function_caller.new_ M T val σ.heap
  some ({ σ with heap := h1 }.push_var ⟨some p⟩)

/-- The call `m_caller.reset(p)` on container object `this`: the member takes the new
pointer, then the old one, when non-null, is deleted. -/
def reset (M : Env Ty V A R E W) (this : Nat) (p : Option Nat) (σ : State Ty V) :
    Option (State Ty V) := do
  let f ← σ.var this
  let σ1 := σ.set_var this ⟨p⟩
  match f.m_caller with
  | some old => do
    let h1 ← detail.function_caller_base.delete_ M old σ1.heap
    some { σ1 with heap := h1 }
  | none => some σ1

/-- The copy assignment `function & operator=(function const & rhs)`. -/
def copy_assign (M : Env Ty V A R E W) (this rhs : Nat) (σ : State Ty V) :
    Option (State Ty V) := do
  let _ ← σ.var this
  let r ← σ.var rhs
  if this ≠ rhs then
    match r.m_caller with
    | some p => do
      let (q, h1) ← detail.function_caller_base.make_copy M p σ.heap
      reset M this (some q) { σ with heap := h1 }
    | none => reset M this none σ
  else
    some σ

/-- The move assignment `function & operator=(function && rhs)`:
`m_caller.swap(rhs.m_caller)`. -/
def move_assign (this rhs : Nat) (σ : State Ty V) : Option (State Ty V) := do
  let f ← σ.var this
  let r ← σ.var rhs
  some ((σ.set_var this ⟨r.m_caller⟩).set_var rhs ⟨f.m_caller⟩)

/-- The conversion `explicit operator bool()`: `return m_caller.get();`. -/
def operator_bool (this : Nat) (σ : State Ty V) : Option Bool := do
  let f ← σ.var this
  some f.m_caller.isSome

/-- The call operator `R operator()(Args... args) const`. -/
def operator_call (M : Env Ty V A R E W) (this : Nat) (args : A) (σ : State Ty V) (w : W) :
    Option (Except (Thrown E) R × State Ty V × W) := do
  let f ← σ.var this
  match f.m_caller with
  | some p => do
    let (r, h1, w1) ← detail.function_caller_base.invoke M p args σ.heap w
    some (r.mapError Thrown.by_callable, { σ with heap := h1 }, w1)
  | none => some (.error Thrown.bad_function_call, σ, w)

/-- The member template `T * target()` (and its `const` overload, which has the same
body): `return (*this) ? m_caller->template get_func_ptr<T>() : nullptr;`. -/
def target (M : Env Ty V A R E W) (T : Ty) (this : Nat) (σ : State Ty V) :
    Option (Option FunctorPtr) := do
  let f ← σ.var this
  match f.m_caller with
  | some p => detail.function_caller_base.get_func_ptr M T p σ.heap
  | none => some none

/-- The implicit destructor of container object `this`: `~unique_ptr` deletes a non-null
`m_caller`; the object's lifetime ends. -/
def dtor (M : Env Ty V A R E W) (this : Nat) (σ : State Ty V) : Option (State Ty V) := do
  let f ← σ.var this
  match f.m_caller with
  | some p => do
    let h1 ← detail.function_caller_base.delete_ M p σ.heap
    some ({ σ with heap := h1 }.end_var this)
  | none => some (σ.end_var this)

end function

end methods

section invariants

variable {Ty V A R E W : Type} [DecidableEq Ty]

/-- The callable held by the caller object at `self`, read the way `invoke` reads it:
dynamic type, `get_func()`, dereference. -/
def detail.function_caller_base.held (M : Env Ty V A R E W) (self : Nat) (h : Heap Ty V) :
    Option (Ty × V) := do
  let Functor ← detail.function_caller_base.dynamic_type h self
  let ref ← detail.function_caller.get_func M Functor self h
  let v ← h.load Functor ref
  some (Functor, v)

/-- The free-store addresses a caller object accounts for: its own and, when its cell
holds a pointer, the address pointed to. -/
def Heap.footprint {Ty V : Type} (h : Heap Ty V) (self : Nat) : List Nat :=
  match h.at_ self with
  | some (.caller _ (.pointer q)) => [self, q]
  | _ => [self]

/-- The callable held by container object `this`: `none` for an empty container. -/
def function.held (M : Env Ty V A R E W) (this : Nat) (σ : State Ty V) : Option (Ty × V) := do
  let f ← σ.var this
  let p ← f.m_caller
  detail.function_caller_base.held M p σ.heap

/-- What an invocation lets the outside see, as a function of the arguments and of the
outside world before the call: the returned value or thrown exception, and the outside
world afterwards. -/
def function.outcome (M : Env Ty V A R E W) (this : Nat) (args : A) (σ : State Ty V) (w : W) :
    Option (Except (Thrown E) R × W) :=
  (function.operator_call M this args σ w).map (fun x => (x.1, x.2.2))

/-- Exclusive ownership: every non-null `m_caller` points to a caller object that holds a
callable, no two containers have the same `m_caller`, and distinct caller objects account
for disjoint addresses. -/
def State.WF (M : Env Ty V A R E W) (σ : State Ty V) : Prop :=
  (∀ i p, σ.var i = some ⟨some p⟩ → (detail.function_caller_base.held M p σ.heap).isSome) ∧
  (∀ i j p, σ.var i = some ⟨some p⟩ → σ.var j = some ⟨some p⟩ → i = j) ∧
  (∀ i j p q, σ.var i = some ⟨some p⟩ → σ.var j = some ⟨some q⟩ → p ≠ q →
    ∀ a, a ∈ σ.heap.footprint p → a ∉ σ.heap.footprint q)

/-- The statements of a client program that act on container objects. -/
inductive Op (Ty V A : Type)
  | default_ctor
  | ctor (T : Ty) (val : V)
  | copy_ctor (other : Nat)
  | move_ctor (other : Nat)
  | copy_assign (this rhs : Nat)
  | move_assign (this rhs : Nat)
  | call (this : Nat) (args : A)
  | dtor (this : Nat)

/-- Run one statement. -/
def Op.run (M : Env Ty V A R E W) (op : Op Ty V A) (σ : State Ty V) (w : W) :
    Option (State Ty V × W) :=
  match op with
  | .default_ctor => some ((function.default_ctor σ).2, w)
  | .ctor T val => (function.ctor M T val σ).map (fun x => (x.2, w))
  | .copy_ctor other => (function.copy_ctor M other σ).map (fun x => (x.2, w))
  | .move_ctor other => (function.move_ctor other σ).map (fun x => (x.2, w))
  | .copy_assign this rhs => (function.copy_assign M this rhs σ).map (fun σ1 => (σ1, w))
  | .move_assign this rhs => (function.move_assign this rhs σ).map (fun σ1 => (σ1, w))
  | .call this args => (function.operator_call M this args σ w).map (fun x => (x.2.1, x.2.2))
  | .dtor this => (function.dtor M this σ).map (fun σ1 => (σ1, w))

/-- Whether a statement names container object `i` as an operand it may modify: the
target of an assignment, either side of a move, the container invoked or destroyed. -/
def Op.modifies (op : Op Ty V A) (i : Nat) : Bool :=
  match op with
  | .default_ctor => false
  | .ctor _ _ => false
  | .copy_ctor _ => false
  | .move_ctor other => other == i
  | .copy_assign this _ => this == i
  | .move_assign this rhs => this == i || rhs == i
  | .call this _ => this == i
  | .dtor this => this == i

/-- Whether every container object a statement names is live. -/
def Op.operands_live (op : Op Ty V A) (σ : State Ty V) : Bool :=
  match op with
  | .default_ctor => true
  | .ctor _ _ => true
  | .copy_ctor other => (σ.var other).isSome
  | .move_ctor other => (σ.var other).isSome
  | .copy_assign this rhs => (σ.var this).isSome && (σ.var rhs).isSome
  | .move_assign this rhs => (σ.var this).isSome && (σ.var rhs).isSome
  | .call this _ => (σ.var this).isSome
  | .dtor this => (σ.var this).isSome

/-- Run a sequence of statements, left to right. -/
def Op.run_all (M : Env Ty V A R E W) : List (Op Ty V A) → State Ty V → W →
    Option (State Ty V × W)
  | [], σ, w => some (σ, w)
  | op :: ops, σ, w =>
    match op.run M σ w with
    | some (σ1, w1) => Op.run_all M ops σ1 w1
    | none => none

end invariants

/-- Callable types of the running example, all on the signature `int(int)`. -/
inductive ExTy
  | Adder
  | Tally
  | FnPtr
  | int_
deriving DecidableEq

/-- Traits of the example types on an LP64 target: `Adder` holds one `int`; `Tally` holds
two `long`s, one of them `mutable`; `FnPtr` is `int (*)(int)`. -/
def exTraits : ExTy → TypeTraits
  | .Adder => ⟨4, 4, true⟩
  | .Tally => ⟨16, 8, true⟩
  | .FnPtr => ⟨8, 8, true⟩
  | .int_ => ⟨4, 4, true⟩

/-- Call operators of the example types: `Adder{n}(x)` returns `x + n`; `Tally` adds `x` to
its running total, counts the call in the outside world and returns the total, throwing on
a negative argument; `FnPtr` doubles its argument. -/
def exCall : ExTy → Int → Int → Nat → Except String Int × Int × Nat
  | .Adder, n, x, w => (.ok (x + n), n, w)
  | .Tally, n, x, w => if x < 0 then (.error "negative", n, w + 1) else (.ok (n + x), n + x, w + 1)
  | .FnPtr, f, x, w => (.ok (2 * x), f, w)
  | .int_, n, _, w => (.ok n, n, w)

/-- The example instantiation, with eight-byte, eight-byte aligned pointers. -/
def exEnv : Env ExTy Int Int Int String Nat :=
  ⟨8, 8, exTraits, exCall⟩

/-- The state after `function<int(int)> f = Adder{5};` at the start of a program. -/
def exAdder : State ExTy Int :=
  ⟨[some ⟨some 0⟩], ⟨[some (.caller .Adder (.object .Adder 5))], 1, 0⟩⟩

/-- The state after `function<int(int)> g = Tally{5};` at the start of a program. -/
def exTally : State ExTy Int :=
  ⟨[some ⟨some 0⟩], ⟨[some (.caller .Tally (.pointer 1)), some (.functor .Tally 5)], 2, 0⟩⟩

/-- The state after `function<int(int)> g = Tally{5}; function<int(int)> e;`. -/
def exTallyEmpty : State ExTy Int :=
  ⟨[some ⟨some 0⟩, some ⟨none⟩],
    ⟨[some (.caller .Tally (.pointer 1)), some (.functor .Tally 5)], 2, 0⟩⟩
/-- The state `exTally` after `function<int(int)> h = g;`. -/
def exTallyCopy : State ExTy Int :=
  ⟨[some ⟨some 0⟩, some ⟨some 2⟩],
    ⟨[some (.caller .Tally (.pointer 1)), some (.functor .Tally 5),
      some (.caller .Tally (.pointer 3)), some (.functor .Tally 5)], 4, 0⟩⟩

/-- The state `exTallyCopy` after `h(7); h(2);` and the end of the lifetime of `h`. -/
def exTallyCopyGone : State ExTy Int :=
  ⟨[some ⟨some 0⟩, none],
    ⟨[some (.caller .Tally (.pointer 1)), some (.functor .Tally 5), none, none], 4, 2⟩⟩

/-- A function pointer on an LP64 target: eight bytes, eight-byte aligned, trivially movable. -/
def fn_ptr_lp64 : TypeTraits := ⟨8, 8, true⟩


section heap_lemmas

variable {Ty V : Type}

theorem Heap.at_lt {h : Heap Ty V} {p : Nat} {o : HeapObj Ty V} (hp : h.at_ p = some o) :
    p < h.mem.length := by
  by_contra hge
  have : h.mem[p]? = none := List.getElem?_eq_none (by omega)
  simp [Heap.at_, this] at hp

theorem Heap.at_new (h : Heap Ty V) (o : HeapObj Ty V) (a : Nat) :
    (h.operator_new o).2.at_ a = if a = h.mem.length then some o else h.at_ a := by
  simp only [Heap.operator_new, Heap.at_]
  split_ifs with ha
  · subst ha; simp
  · rcases Nat.lt_or_gt_of_ne ha with hlt | hgt
    · rw [List.getElem?_append_left hlt]
    · rw [List.getElem?_eq_none (by simp; omega), List.getElem?_eq_none (by omega)]

theorem Heap.at_put {h h1 : Heap Ty V} {p : Nat} {o : HeapObj Ty V}
    (hput : h.put p o = some h1) (a : Nat) :
    h1.at_ a = if a = p then some o else h.at_ a := by
  unfold Heap.put at hput
  split at hput
  · rename_i x hx
    have hlt := Heap.at_lt hx
    cases hput
    simp only [Heap.at_]
    split_ifs with ha
    · subst ha; simp [List.getElem?_set_self, hlt]
    · rw [List.getElem?_set_ne (Ne.symm ha)]
  · cases hput

theorem Heap.put_counts {h h1 : Heap Ty V} {p : Nat} {o : HeapObj Ty V}
    (hput : h.put p o = some h1) :
    h1.news = h.news ∧ h1.deletes = h.deletes ∧ h1.mem.length = h.mem.length := by
  unfold Heap.put at hput
  split at hput
  · cases hput; simp
  · cases hput

theorem Heap.put_some {h : Heap Ty V} {p : Nat} {o0 : HeapObj Ty V} (hp : h.at_ p = some o0)
    (o : HeapObj Ty V) : ∃ h1, h.put p o = some h1 := by
  simp [Heap.put, hp]

theorem Heap.at_delete {h h1 : Heap Ty V} {p : Nat}
    (hd : h.operator_delete p = some h1) (a : Nat) :
    h1.at_ a = if a = p then none else h.at_ a := by
  unfold Heap.operator_delete at hd
  split at hd
  · rename_i x hx
    have hlt := Heap.at_lt hx
    cases hd
    simp only [Heap.at_]
    split_ifs with ha
    · subst ha; simp [List.getElem?_set_self, hlt]
    · rw [List.getElem?_set_ne (Ne.symm ha)]
  · cases hd

theorem Heap.delete_counts {h h1 : Heap Ty V} {p : Nat}
    (hd : h.operator_delete p = some h1) :
    h1.news = h.news ∧ h1.deletes = h.deletes + 1 ∧ h1.mem.length = h.mem.length := by
  unfold Heap.operator_delete at hd
  split at hd
  · cases hd; simp
  · cases hd

theorem Heap.delete_some {h : Heap Ty V} {p : Nat} {o0 : HeapObj Ty V}
    (hp : h.at_ p = some o0) : ∃ h1, h.operator_delete p = some h1 := by
  simp [Heap.operator_delete, hp]

end heap_lemmas

section var_lemmas

variable {Ty V : Type}

theorem State.var_lt {σ : State Ty V} {i : Nat} {f : function} (hi : σ.var i = some f) :
    i < σ.vars.length := by
  by_contra hge
  have : σ.vars[i]? = none := List.getElem?_eq_none (by omega)
  simp [State.var, this] at hi

theorem State.var_set_var {σ : State Ty V} {i : Nat} (hi : i < σ.vars.length) (f : function)
    (j : Nat) : (σ.set_var i f).var j = if j = i then some f else σ.var j := by
  simp only [State.set_var, State.var]
  split_ifs with hj
  · subst hj; simp [List.getElem?_set_self, hi]
  · rw [List.getElem?_set_ne (Ne.symm hj)]

theorem State.var_end_var {σ : State Ty V} {i : Nat} (hi : i < σ.vars.length)
    (j : Nat) : (σ.end_var i).var j = if j = i then none else σ.var j := by
  simp only [State.end_var, State.var]
  split_ifs with hj
  · subst hj; simp [List.getElem?_set_self, hi]
  · rw [List.getElem?_set_ne (Ne.symm hj)]

theorem State.var_push_var (σ : State Ty V) (f : function) (j : Nat) :
    (σ.push_var f).2.var j = if j = σ.vars.length then some f else σ.var j := by
  simp only [State.push_var, State.var]
  split_ifs with hj
  · subst hj; simp
  · rcases Nat.lt_or_gt_of_ne hj with hlt | hgt
    · rw [List.getElem?_append_left hlt]
    · rw [List.getElem?_eq_none (by simp; omega), List.getElem?_eq_none (by omega)]

end var_lemmas

section caller_lemmas

variable {Ty V A R E W : Type} [DecidableEq Ty]

open detail

theorem held_unfold (M : Env Ty V A R E W) (p : Nat) (h : Heap Ty V) :
    function_caller_base.held M p h =
      match h.at_ p with
      | some (.caller t s) =>
        if M.fits_small t then
          match s with
          | .object u v => if u = t then some (t, v) else none
          | _ => none
        else
          match s with
          | .pointer q =>
            match h.at_ q with
            | some (.functor u v) => if u = t then some (t, v) else none
            | _ => none
          | _ => none
      | _ => none := by
  unfold function_caller_base.held function_caller_base.dynamic_type function_caller.get_func
    func_storage.get_func func_storage.functor_from_storage
  cases hp : h.at_ p with
  | none => simp
  | some o =>
    cases o with
    | functor u v => simp
    | caller t s =>
      cases hf : M.fits_small t
      · cases s with
        | indeterminate => simp [Heap.read_cell, hp, hf]
        | object u v => simp [Heap.read_cell, hp, hf]
        | pointer q =>
          cases hq : h.at_ q with
          | none => simp [Heap.read_cell, Heap.load, hp, hf, hq]
          | some o2 =>
            cases o2 with
            | caller _ _ => simp [Heap.read_cell, Heap.load, hp, hf, hq]
            | functor u v =>
              simp [Heap.read_cell, Heap.load, hp, hf, hq]
              split_ifs <;> simp_all
      · cases s <;> simp [Heap.read_cell, Heap.load, hp, hf]
        split_ifs <;> simp_all

theorem held_inline {M : Env Ty V A R E W} {p : Nat} {h : Heap Ty V} {t : Ty} {v : V}
    (hf : M.fits_small t = true) :
    function_caller_base.held M p h = some (t, v) ↔
      h.at_ p = some (.caller t (.object t v)) := by
  rw [held_unfold]
  constructor
  · intro hh
    split at hh
    · rename_i t1 s hp
      split_ifs at hh with h1
      · split at hh
        · split_ifs at hh with h2
          simp only [Option.some.injEq, Prod.mk.injEq] at hh
          obtain ⟨rfl, rfl⟩ := hh
          subst h2
          exact hp
        · cases hh
      · split at hh
        · split at hh
          · split_ifs at hh with h2
            simp only [Option.some.injEq, Prod.mk.injEq] at hh
            obtain ⟨rfl, rfl⟩ := hh
            exact absurd hf h1
          · cases hh
        · cases hh
    · cases hh
  · intro hp
    simp [hp, hf]

theorem held_indirect {M : Env Ty V A R E W} {p : Nat} {h : Heap Ty V} {t : Ty} {v : V}
    (hf : M.fits_small t = false) :
    function_caller_base.held M p h = some (t, v) ↔
      ∃ q, h.at_ p = some (.caller t (.pointer q)) ∧ h.at_ q = some (.functor t v) := by
  rw [held_unfold]
  constructor
  · intro hh
    split at hh
    · rename_i t1 s hp
      split_ifs at hh with h1
      · split at hh
        · split_ifs at hh with h2
          simp only [Option.some.injEq, Prod.mk.injEq] at hh
          obtain ⟨rfl, rfl⟩ := hh
          rw [hf] at h1
          cases h1
        · cases hh
      · split at hh
        · rename_i q
          split at hh
          · rename_i u v1 hq
            split_ifs at hh with h2
            simp only [Option.some.injEq, Prod.mk.injEq] at hh
            obtain ⟨rfl, rfl⟩ := hh
            subst h2
            exact ⟨q, hp, hq⟩
          · cases hh
        · cases hh
    · cases hh
  · rintro ⟨q, hp, hq⟩
    simp [hp, hq, hf]

theorem held_dynamic_type {M : Env Ty V A R E W} {p : Nat} {h : Heap Ty V} {t : Ty} {v : V}
    (hh : function_caller_base.held M p h = some (t, v)) :
    function_caller_base.dynamic_type h p = some t := by
  cases hf : M.fits_small t
  · obtain ⟨q, hp, _⟩ := (held_indirect hf).1 hh
    simp [function_caller_base.dynamic_type, hp]
  · have hp := (held_inline hf).1 hh
    simp [function_caller_base.dynamic_type, hp]

/-- The held callable and the footprint of a caller object depend only on the slots in
its footprint. -/
theorem caller_held_congr (M : Env Ty V A R E W) {p : Nat} {h h1 : Heap Ty V}
    (hag : ∀ a, a ∈ h.footprint p → h1.at_ a = h.at_ a) :
    function_caller_base.held M p h1 = function_caller_base.held M p h ∧
      h1.footprint p = h.footprint p := by
  have hp : h1.at_ p = h.at_ p := by
    apply hag
    unfold Heap.footprint
    split <;> simp
  refine ⟨?_, ?_⟩
  · rw [held_unfold, held_unfold, hp]
    cases hc : h.at_ p with
    | none => rfl
    | some o =>
      cases o with
      | functor u v => rfl
      | caller t s =>
        cases s with
        | indeterminate => rfl
        | object u v => rfl
        | pointer q =>
          have hq : h1.at_ q = h.at_ q := by
            apply hag
            simp [Heap.footprint, hc]
          simp only [hq]
  · simp only [Heap.footprint, hp]

theorem footprint_live {M : Env Ty V A R E W} {p : Nat} {h : Heap Ty V} {tv : Ty × V}
    (hh : function_caller_base.held M p h = some tv) :
    ∀ a, a ∈ h.footprint p → (h.at_ a).isSome = true := by
  obtain ⟨t, v⟩ := tv
  intro a ha
  cases hf : M.fits_small t
  · obtain ⟨q, hp, hq⟩ := (held_indirect hf).1 hh
    simp only [Heap.footprint, hp, List.mem_cons, List.mem_singleton, List.not_mem_nil,
      or_false] at ha
    rcases ha with rfl | rfl
    · simp [hp]
    · simp [hq]
  · have hp := (held_inline hf).1 hh
    simp only [Heap.footprint, hp, List.mem_singleton] at ha
    subst ha
    simp [hp]

theorem footprint_lt {M : Env Ty V A R E W} {p : Nat} {h : Heap Ty V} {tv : Ty × V}
    (hh : function_caller_base.held M p h = some tv) :
    ∀ a, a ∈ h.footprint p → a < h.mem.length := by
  intro a ha
  have := footprint_live hh a ha
  cases hc : h.at_ a with
  | none => simp [hc] at this
  | some o => exact Heap.at_lt hc

omit [DecidableEq Ty] in
theorem self_mem_footprint (h : Heap Ty V) (p : Nat) : p ∈ h.footprint p := by
  unfold Heap.footprint
  split <;> simp

end caller_lemmas

section op_lemmas

variable {Ty V A R E W : Type} [DecidableEq Ty]

open detail

omit [DecidableEq Ty] in
theorem Heap.put_total {h : Heap Ty V} {p : Nat} {o0 : HeapObj Ty V} (hp : h.at_ p = some o0)
    (o : HeapObj Ty V) :
    ∃ h1, h.put p o = some h1 ∧ (∀ a, h1.at_ a = if a = p then some o else h.at_ a) ∧
      h1.news = h.news ∧ h1.deletes = h.deletes ∧ h1.mem.length = h.mem.length := by
  obtain ⟨h1, hput⟩ := Heap.put_some hp o
  exact ⟨h1, hput, Heap.at_put hput, Heap.put_counts hput⟩

omit [DecidableEq Ty] in
theorem Heap.write_cell_total {h : Heap Ty V} {p : Nat} {t : Ty} {s0 : storage_t Ty V}
    (hp : h.at_ p = some (.caller t s0)) (s : storage_t Ty V) :
    ∃ h1, h.write_cell p s = some h1 ∧
      (∀ a, h1.at_ a = if a = p then some (.caller t s) else h.at_ a) ∧
      h1.news = h.news ∧ h1.deletes = h.deletes ∧ h1.mem.length = h.mem.length := by
  obtain ⟨h1, hput, hrest⟩ := Heap.put_total hp (.caller t s)
  exact ⟨h1, by simp [Heap.write_cell, hp, hput], hrest⟩

omit [DecidableEq Ty] in
theorem Heap.operator_delete_spec {h : Heap Ty V} {p : Nat} {o0 : HeapObj Ty V}
    (hp : h.at_ p = some o0) :
    ∃ h1, h.operator_delete p = some h1 ∧ (∀ a, h1.at_ a = if a = p then none else h.at_ a) ∧
      h1.news = h.news ∧ h1.deletes = h.deletes + 1 ∧ h1.mem.length = h.mem.length := by
  obtain ⟨h1, hd⟩ := Heap.delete_some hp
  exact ⟨h1, hd, Heap.at_delete hd, Heap.delete_counts hd⟩

/-- The expression `new function_caller<t, R(Args...)>(v)` always succeeds, at the first
unused address, and leaves everything allocated before untouched. -/
theorem new_spec (M : Env Ty V A R E W) (t : Ty) (v : V) (h : Heap Ty V) :
    ∃ h1, function_caller.new_ M t v h = some (h.mem.length, h1) ∧
      function_caller_base.held M h.mem.length h1 = some (t, v) ∧
      (∀ a, a < h.mem.length → h1.at_ a = h.at_ a) ∧
      (∀ a, a ∈ h1.footprint h.mem.length → h.mem.length ≤ a) ∧
      h1.news = h.news + (if M.fits_small t then 1 else 2) ∧ h1.deletes = h.deletes := by
  have h0at := Heap.at_new h (.caller t .indeterminate)
  have hself : (h.operator_new (.caller t .indeterminate)).2.at_ h.mem.length =
      some (.caller t .indeterminate) := by rw [h0at]; simp
  cases hf : M.fits_small t
  · -- indirect layout
    have h1at := Heap.at_new (h.operator_new (.caller t .indeterminate)).2 (.functor t v)
    have hlen : (h.operator_new (.caller t .indeterminate)).2.mem.length = h.mem.length + 1 := by
      simp [Heap.operator_new]
    have hself1 : ((h.operator_new (.caller t .indeterminate)).2.operator_new
        (.functor t v)).2.at_ h.mem.length = some (.caller t .indeterminate) := by
      rw [h1at, hlen, if_neg (by omega), hself]
    obtain ⟨h2, hw, hat, hn, hd, _⟩ := Heap.write_cell_total hself1 (.pointer (h.mem.length + 1))
    refine ⟨h2, ?_, ?_, ?_, ?_, ?_, ?_⟩
    · simp only [function_caller.new_, function_caller.ctor, func_storage.ctor,
        func_storage.forward_assign, hf]
      simp only [Heap.operator_new] at hw ⊢
      simp at hw ⊢
      exact hw
    · rw [held_indirect hf]
      refine ⟨h.mem.length + 1, ?_, ?_⟩
      · rw [hat]; simp
      · rw [hat, if_neg (by omega), h1at, hlen]; simp
    · intro a ha
      rw [hat, if_neg (by omega), h1at, hlen, if_neg (by omega), h0at, if_neg (by omega)]
    · intro a ha
      have : h2.at_ h.mem.length = some (.caller t (.pointer (h.mem.length + 1))) := by
        rw [hat]; simp
      simp only [Heap.footprint, this, List.mem_cons, List.mem_singleton, List.not_mem_nil,
        or_false] at ha
      omega
    · rw [hn]; simp [Heap.operator_new]
    · rw [hd]; simp [Heap.operator_new]
  · -- inline layout
    obtain ⟨h2, hw, hat, hn, hd, _⟩ := Heap.write_cell_total hself (.object t v)
    refine ⟨h2, ?_, ?_, ?_, ?_, ?_, ?_⟩
    · simp only [function_caller.new_, function_caller.ctor, func_storage.ctor,
        func_storage.forward_assign, hf]
      simp only [Heap.operator_new] at hw ⊢
      simp at hw ⊢
      exact hw
    · rw [held_inline hf, hat]; simp
    · intro a ha
      rw [hat, if_neg (by omega), h0at, if_neg (by omega)]
    · intro a ha
      have : h2.at_ h.mem.length = some (.caller t (.object t v)) := by
        rw [hat]; simp
      simp only [Heap.footprint, this, List.mem_singleton] at ha
      omega
    · rw [hn]; simp [Heap.operator_new]
    · rw [hd]; simp [Heap.operator_new]

end op_lemmas

section op_lemmas2

variable {Ty V A R E W : Type} [DecidableEq Ty]

open detail

/-- How `get_func()` reaches the callable a caller object holds. -/
theorem get_func_spec {M : Env Ty V A R E W} {p : Nat} {h : Heap Ty V} {t : Ty} {v : V}
    (hh : function_caller_base.held M p h = some (t, v)) :
    ∃ ref, func_storage.get_func M t p h = some ref ∧ h.load t ref = some v ∧
      ((M.fits_small t = true ∧ ref = .in_cell p ∧
          h.at_ p = some (.caller t (.object t v))) ∨
        (M.fits_small t = false ∧ ∃ q, ref = .on_heap q ∧
          h.at_ p = some (.caller t (.pointer q)) ∧ h.at_ q = some (.functor t v))) := by
  cases hf : M.fits_small t
  · obtain ⟨q, hp, hq⟩ := (held_indirect hf).1 hh
    refine ⟨.on_heap q, ?_, ?_, Or.inr ⟨rfl, q, rfl, hp, hq⟩⟩
    · simp [func_storage.get_func, func_storage.functor_from_storage, Heap.read_cell, hp, hf]
    · simp [Heap.load, hq]
  · have hp := (held_inline hf).1 hh
    refine ⟨.in_cell p, ?_, ?_, Or.inl ⟨rfl, rfl, hp⟩⟩
    · simp [func_storage.get_func, func_storage.functor_from_storage, Heap.read_cell, hp, hf]
    · simp [Heap.load, Heap.read_cell, hp]

/-- The virtual `invoke` on a caller object that holds `(t, v)`: it returns what the call
operator of `t` returns on `v`, leaves the object's new state in place, and touches no slot
outside the caller's footprint. -/
theorem invoke_spec {M : Env Ty V A R E W} {p : Nat} {h : Heap Ty V} {t : Ty} {v : V}
    (hh : function_caller_base.held M p h = some (t, v)) (a : A) (w : W) :
    ∃ h1, function_caller_base.invoke M p a h w =
        some ((M.call t v a w).1, h1, (M.call t v a w).2.2) ∧
      function_caller_base.held M p h1 = some (t, (M.call t v a w).2.1) ∧
      h1.footprint p = h.footprint p ∧
      (∀ x, x ∉ h.footprint p → h1.at_ x = h.at_ x) ∧
      h1.news = h.news ∧ h1.deletes = h.deletes ∧ h1.mem.length = h.mem.length := by
  have hdyn := held_dynamic_type hh
  obtain ⟨ref, hgf, hld, hcase⟩ := get_func_spec hh
  rcases hcase with ⟨hf, rfl, hp⟩ | ⟨hf, q, rfl, hp, hq⟩
  · obtain ⟨h1, hw, hat, hn, hd, hl⟩ := Heap.write_cell_total hp (.object t (M.call t v a w).2.1)
    have hp1 : h1.at_ p = some (.caller t (.object t (M.call t v a w).2.1)) := by
      rw [hat]; simp
    refine ⟨h1, ?_, ?_, ?_, ?_, hn, hd, hl⟩
    · simp [function_caller_base.invoke, function_caller.invoke, hdyn, hgf, hld, Heap.store, hw]
    · rw [held_inline hf, hp1]
    · simp [Heap.footprint, hp, hp1]
    · intro x hx
      have : x ≠ p := fun hxp => hx (hxp ▸ self_mem_footprint h p)
      rw [hat, if_neg this]
  · obtain ⟨h1, hw, hat, hn, hd, hl⟩ := Heap.put_total hq (.functor t (M.call t v a w).2.1)
    have hpq : p ≠ q := by
      intro hpq; rw [hpq, hq] at hp; cases hp
    have hp1 : h1.at_ p = some (.caller t (.pointer q)) := by
      rw [hat, if_neg hpq, hp]
    refine ⟨h1, ?_, ?_, ?_, ?_, hn, hd, hl⟩
    · simp [function_caller_base.invoke, function_caller.invoke, hdyn, hgf, hld, Heap.store, hw]
    · rw [held_indirect hf]
      exact ⟨q, hp1, by rw [hat]; simp⟩
    · simp [Heap.footprint, hp, hp1]
    · intro x hx
      have : x ≠ q := by
        intro hxq; apply hx; simp [Heap.footprint, hp, hxq]
      rw [hat, if_neg this]

/-- The virtual `make_copy` on a caller object that holds `(t, v)` is
`new function_caller<t, R(Args...)>(v)`. -/
theorem make_copy_spec {M : Env Ty V A R E W} {p : Nat} {h : Heap Ty V} {t : Ty} {v : V}
    (hh : function_caller_base.held M p h = some (t, v)) :
    function_caller_base.make_copy M p h = function_caller.new_ M t v h := by
  have hdyn := held_dynamic_type hh
  obtain ⟨ref, hgf, hld, -⟩ := get_func_spec hh
  simp [function_caller_base.make_copy, function_caller.make_copy, function_caller.get_func,
    hdyn, hgf, hld]

/-- The expression `delete p` on a caller object that holds a callable: every slot of its
footprint is released, nothing else changes, and one or two `delete`s are counted
according to the layout. -/
theorem delete_spec {M : Env Ty V A R E W} {p : Nat} {h : Heap Ty V} {t : Ty} {v : V}
    (hh : function_caller_base.held M p h = some (t, v)) :
    ∃ h1, function_caller_base.delete_ M p h = some h1 ∧
      (∀ x, x ∈ h.footprint p → h1.at_ x = none) ∧
      (∀ x, x ∉ h.footprint p → h1.at_ x = h.at_ x) ∧
      h1.news = h.news ∧ h1.deletes = h.deletes + (if M.fits_small t then 1 else 2) ∧
      h1.mem.length = h.mem.length := by
  have hdyn := held_dynamic_type hh
  obtain ⟨ref, hgf, hld, hcase⟩ := get_func_spec hh
  rcases hcase with ⟨hf, rfl, hp⟩ | ⟨hf, q, rfl, hp, hq⟩
  · obtain ⟨h1, hw, hat, hn, hd, hl⟩ := Heap.write_cell_total hp .indeterminate
    have hp1 : h1.at_ p = some (.caller t .indeterminate) := by rw [hat]; simp
    obtain ⟨h2, hdel, hat2, hn2, hd2, hl2⟩ := Heap.operator_delete_spec hp1
    refine ⟨h2, ?_, ?_, ?_, ?_, ?_, ?_⟩
    · simp [function_caller_base.delete_, function_caller.dtor, func_storage.dtor,
        func_storage.destruct, hdyn, hf, hgf, hld, hw, hdel]
    · intro x hx
      simp only [Heap.footprint, hp, List.mem_singleton] at hx
      rw [hat2, if_pos hx]
    · intro x hx
      have : x ≠ p := fun hxp => hx (hxp ▸ self_mem_footprint h p)
      rw [hat2, if_neg this, hat, if_neg this]
    · rw [hn2, hn]
    · rw [hd2, hd]; simp [hf]
    · rw [hl2, hl]
  · have hpq : p ≠ q := by
      intro hpq; rw [hpq, hq] at hp; cases hp
    obtain ⟨h1, hdel1, hat, hn, hd, hl⟩ := Heap.operator_delete_spec hq
    have hp1 : h1.at_ p = some (.caller t (.pointer q)) := by
      rw [hat, if_neg hpq, hp]
    obtain ⟨h2, hdel, hat2, hn2, hd2, hl2⟩ := Heap.operator_delete_spec hp1
    have hgp : func_storage.get_func_ptr M t p h = some (.on_heap q) := hgf
    refine ⟨h2, ?_, ?_, ?_, ?_, ?_, ?_⟩
    · simp [function_caller_base.delete_, function_caller.dtor, func_storage.dtor,
        func_storage.destruct, hdyn, hf, hgp, hld, hdel1, hdel]
    · intro x hx
      simp only [Heap.footprint, hp, List.mem_cons, List.mem_singleton, List.not_mem_nil,
        or_false] at hx
      rw [hat2]
      split_ifs with hxp
      · rfl
      · rcases hx with rfl | rfl
        · exact absurd rfl hxp
        · rw [hat]; simp
    · intro x hx
      simp only [Heap.footprint, hp, List.mem_cons, List.mem_singleton, List.not_mem_nil,
        or_false, not_or] at hx
      rw [hat2, if_neg hx.1, hat, if_neg hx.2]
    · rw [hn2, hn]
    · rw [hd2, hd]; simp [hf]
    · rw [hl2, hl]

/-- The member template `get_func_ptr<T>()` on a caller object that holds `(t, v)`: a
pointer to the held callable when `T` is `t`, the null pointer otherwise. -/
theorem get_func_ptr_spec {M : Env Ty V A R E W} {p : Nat} {h : Heap Ty V} {t : Ty} {v : V}
    (hh : function_caller_base.held M p h = some (t, v)) (T : Ty) :
    (T = t → ∃ ptr, function_caller_base.get_func_ptr M T p h = some (some ptr) ∧
        h.load T ptr = some v) ∧
      (T ≠ t → function_caller_base.get_func_ptr M T p h = some none) := by
  have hdyn := held_dynamic_type hh
  obtain ⟨ref, hgf, hld, -⟩ := get_func_spec hh
  have hgp : func_storage.get_func_ptr M t p h = some ref := hgf
  constructor
  · rintro rfl
    exact ⟨ref, by simp [function_caller_base.get_func_ptr, function_caller.get_func_ptr,
      hdyn, hgp], hld⟩
  · intro hne
    simp [function_caller_base.get_func_ptr, hdyn, Ne.symm hne]

end op_lemmas2

section wf_lemmas

variable {Ty V A R E W : Type} [DecidableEq Ty]

open detail

theorem State.WF.caller_held {M : Env Ty V A R E W} {σ : State Ty V} (hwf : σ.WF M) {i p : Nat}
    (hi : σ.var i = some ⟨some p⟩) :
    ∃ t v, function_caller_base.held M p σ.heap = some (t, v) := by
  have := hwf.1 i p hi
  cases hc : function_caller_base.held M p σ.heap with
  | none => simp [hc] at this
  | some tv => exact ⟨tv.1, tv.2, rfl⟩

theorem State.WF.owned_lt {M : Env Ty V A R E W} {σ : State Ty V} (hwf : σ.WF M) {i p : Nat}
    (hi : σ.var i = some ⟨some p⟩) : p < σ.heap.mem.length := by
  obtain ⟨t, v, hh⟩ := hwf.caller_held hi
  exact footprint_lt hh p (self_mem_footprint _ _)

theorem State.WF_empty (M : Env Ty V A R E W) : (State.empty : State Ty V).WF M := by
  refine ⟨?_, ?_, ?_⟩ <;> intro i <;> simp [State.var, State.empty]

/-- One step preserves exclusive ownership when every caller owned afterwards is either
one owned before, with its footprint where it was, or the single caller allocated by the
step, and no caller has two owners. -/
theorem State.WF.step {M : Env Ty V A R E W} {σ σ1 : State Ty V} (hwf : σ.WF M)
    (hown : ∀ i p, σ1.var i = some ⟨some p⟩ →
      (((∃ i0, σ.var i0 = some ⟨some p⟩) ∧ σ1.heap.footprint p = σ.heap.footprint p) ∨
        (p = σ.heap.mem.length ∧ ∀ a, a ∈ σ1.heap.footprint p → σ.heap.mem.length ≤ a)) ∧
      (function_caller_base.held M p σ1.heap).isSome)
    (hinj : ∀ i j p, σ1.var i = some ⟨some p⟩ → σ1.var j = some ⟨some p⟩ → i = j) :
    σ1.WF M := by
  refine ⟨fun i p hi => (hown i p hi).2, hinj, ?_⟩
  intro i j p q hi hj hpq a hap haq
  rcases (hown i p hi).1 with ⟨⟨i0, hi0⟩, hfp⟩ | ⟨hpn, hfp⟩ <;>
    rcases (hown j q hj).1 with ⟨⟨j0, hj0⟩, hfq⟩ | ⟨hqn, hfq⟩
  · rw [hfp] at hap; rw [hfq] at haq
    exact hwf.2.2 i0 j0 p q hi0 hj0 hpq a hap haq
  · rw [hfp] at hap
    obtain ⟨t, v, hh⟩ := hwf.caller_held hi0
    have := footprint_lt hh a hap
    have := hfq a haq
    omega
  · rw [hfq] at haq
    obtain ⟨t, v, hh⟩ := hwf.caller_held hj0
    have := footprint_lt hh a haq
    have := hfp a hap
    omega
  · exact hpq (hpn.trans hqn.symm)

/-- Slots below the old end of the free store being untouched, every caller owned before
keeps its callable and its footprint. -/
theorem State.WF.old_kept {M : Env Ty V A R E W} {σ : State Ty V} (hwf : σ.WF M)
    {h1 : Heap Ty V} (hold : ∀ a, a < σ.heap.mem.length → h1.at_ a = σ.heap.at_ a)
    {i p : Nat} (hi : σ.var i = some ⟨some p⟩) :
    function_caller_base.held M p h1 = function_caller_base.held M p σ.heap ∧
      h1.footprint p = σ.heap.footprint p := by
  obtain ⟨t, v, hh⟩ := hwf.caller_held hi
  exact caller_held_congr M (fun a ha => hold a (footprint_lt hh a ha))

/-- A heap change confined to the footprint of one owned caller leaves every other owned
caller with its callable and its footprint. -/
theorem State.WF.other_kept {M : Env Ty V A R E W} {σ : State Ty V} (hwf : σ.WF M)
    {h1 : Heap Ty V} {k p : Nat} (hk : σ.var k = some ⟨some p⟩)
    (hout : ∀ a, a ∉ σ.heap.footprint p → h1.at_ a = σ.heap.at_ a)
    {i q : Nat} (hi : σ.var i = some ⟨some q⟩) (hik : i ≠ k) :
    function_caller_base.held M q h1 = function_caller_base.held M q σ.heap ∧
      h1.footprint q = σ.heap.footprint q := by
  have hqp : q ≠ p := by
    rintro rfl
    exact hik (hwf.2.1 i k q hi hk)
  exact caller_held_congr M (fun a ha => hout a (hwf.2.2 i k q p hi hk hqp a ha))

end wf_lemmas

section container_lemmas

variable {Ty V A R E W : Type} [DecidableEq Ty]

open detail

theorem function.held_of_var {M : Env Ty V A R E W} {σ : State Ty V} {i p : Nat}
    (hi : σ.var i = some ⟨some p⟩) :
    function.held M i σ = function_caller_base.held M p σ.heap := by
  simp [function.held, hi]

theorem function.held_of_empty {M : Env Ty V A R E W} {σ : State Ty V} {i : Nat}
    (hi : σ.var i = some ⟨none⟩) : function.held M i σ = none := by
  simp [function.held, hi]

/-- The held callable of a container depends only on the container's pointer and on the
callable its caller object holds. -/
theorem function.held_congr {M : Env Ty V A R E W} {σ σ1 : State Ty V} {i j : Nat}
    (hv : σ1.var j = σ.var i)
    (hh : ∀ p, σ.var i = some ⟨some p⟩ →
      function_caller_base.held M p σ1.heap = function_caller_base.held M p σ.heap) :
    function.held M j σ1 = function.held M i σ := by
  unfold function.held
  rw [hv]
  cases hi : σ.var i with
  | none => rfl
  | some f =>
    obtain ⟨c⟩ := f
    cases c with
    | none => rfl
    | some p => simpa using hh p hi

/-- What an invocation of a live container in a well-formed state lets the outside see. -/
theorem function.outcome_eq {M : Env Ty V A R E W} {σ : State Ty V} (hwf : σ.WF M) {i : Nat}
    (hi : (σ.var i).isSome) (a : A) (w : W) :
    function.outcome M i a σ w = some
      (match function.held M i σ with
        | none => (.error Thrown.bad_function_call, w)
        | some (t, v) => ((M.call t v a w).1.mapError Thrown.by_callable, (M.call t v a w).2.2)) := by
  cases hv : σ.var i with
  | none => simp [hv] at hi
  | some f =>
    obtain ⟨c⟩ := f
    cases c with
    | none =>
      rw [function.held_of_empty hv]
      simp [function.outcome, function.operator_call, hv]
    | some p =>
      obtain ⟨t, v, hh⟩ := hwf.caller_held hv
      obtain ⟨h1, hinv, -⟩ := invoke_spec hh a w
      rw [function.held_of_var hv, hh]
      simp [function.outcome, function.operator_call, hv, hinv]

theorem function.ctor_spec (M : Env Ty V A R E W) (t : Ty) (v : V) (σ : State Ty V) :
    ∃ σ1, function.ctor M t v σ = some (σ.vars.length, σ1) ∧
      (∀ j, σ1.var j =
        if j = σ.vars.length then some ⟨some σ.heap.mem.length⟩ else σ.var j) ∧
      function_caller_base.held M σ.heap.mem.length σ1.heap = some (t, v) ∧
      (∀ a, a < σ.heap.mem.length → σ1.heap.at_ a = σ.heap.at_ a) ∧
      (∀ a, a ∈ σ1.heap.footprint σ.heap.mem.length → σ.heap.mem.length ≤ a) ∧
      σ1.heap.news = σ.heap.news + (if M.fits_small t then 1 else 2) ∧
      σ1.heap.deletes = σ.heap.deletes := by
  obtain ⟨h1, hnew, hheld, hold, hfp, hn, hd⟩ := new_spec M t v σ.heap
  refine ⟨({ σ with heap := h1 }.push_var ⟨some σ.heap.mem.length⟩).2, ?_, ?_,
    hheld, hold, hfp, hn, hd⟩
  · simp [function.ctor, hnew, State.push_var]
  · intro j
    rw [State.var_push_var]
    rfl

/-- A step that allocates one caller for a new container, leaves the old slots alone and
the old containers as they were, preserves exclusive ownership. -/
theorem State.WF.push_new {M : Env Ty V A R E W} {σ σ1 : State Ty V} (hwf : σ.WF M)
    (hvar : ∀ j, σ1.var j =
      if j = σ.vars.length then some ⟨some σ.heap.mem.length⟩ else σ.var j)
    (hheld : (function_caller_base.held M σ.heap.mem.length σ1.heap).isSome)
    (hold : ∀ a, a < σ.heap.mem.length → σ1.heap.at_ a = σ.heap.at_ a)
    (hfp : ∀ a, a ∈ σ1.heap.footprint σ.heap.mem.length → σ.heap.mem.length ≤ a) :
    σ1.WF M := by
  have key : ∀ i p, σ1.var i = some ⟨some p⟩ →
      (i = σ.vars.length ∧ p = σ.heap.mem.length) ∨
      (i ≠ σ.vars.length ∧ σ.var i = some ⟨some p⟩ ∧ p < σ.heap.mem.length) := by
    intro i p hi
    rw [hvar] at hi
    split_ifs at hi with hil
    · left; simp at hi; exact ⟨hil, hi.symm⟩
    · right; exact ⟨hil, hi, hwf.owned_lt hi⟩
  apply hwf.step
  · intro i p hi
    rcases key i p hi with ⟨-, rfl⟩ | ⟨-, hi0, -⟩
    · exact ⟨Or.inr ⟨rfl, hfp⟩, hheld⟩
    · have := hwf.old_kept hold hi0
      refine ⟨Or.inl ⟨⟨i, hi0⟩, this.2⟩, ?_⟩
      rw [this.1]; exact hwf.1 i p hi0
  · intro i j p hi hj
    rcases key i p hi with ⟨hil, hp⟩ | ⟨hil, hi0, hlt⟩ <;>
      rcases key j p hj with ⟨hjl, hp2⟩ | ⟨hjl, hj0, hlt2⟩
    · rw [hil, hjl]
    · omega
    · omega
    · exact hwf.2.1 i j p hi0 hj0

theorem function.ctor_WF {M : Env Ty V A R E W} {σ σ1 : State Ty V} {t : Ty} {v : V} {i : Nat}
    (hwf : σ.WF M) (hc : function.ctor M t v σ = some (i, σ1)) : σ1.WF M := by
  obtain ⟨σ2, hc2, hvar, hheld, hold, hfp, -⟩ := function.ctor_spec M t v σ
  rw [hc2] at hc
  simp only [Option.some.injEq, Prod.mk.injEq] at hc
  obtain ⟨-, rfl⟩ := hc
  exact hwf.push_new hvar (by simp [hheld]) hold hfp

/-- A step that changes no slot and only adds an empty container preserves exclusive
ownership. -/
theorem State.WF.push_empty {M : Env Ty V A R E W} {σ : State Ty V} (hwf : σ.WF M) :
    (σ.push_var ⟨none⟩).2.WF M := by
  have key : ∀ i p, (σ.push_var ⟨none⟩).2.var i = some ⟨some p⟩ → σ.var i = some ⟨some p⟩ := by
    intro i p hi
    rw [State.var_push_var] at hi
    split_ifs at hi with hil
    · simp at hi
    · exact hi
  apply hwf.step
  · intro i p hi
    exact ⟨Or.inl ⟨⟨i, key i p hi⟩, rfl⟩, hwf.1 i p (key i p hi)⟩
  · intro i j p hi hj
    exact hwf.2.1 i j p (key i p hi) (key j p hj)

/-- An invocation of a non-empty container in a well-formed state. -/
theorem function.call_spec {M : Env Ty V A R E W} {σ : State Ty V} (hwf : σ.WF M) {i p : Nat}
    (hi : σ.var i = some ⟨some p⟩) {t : Ty} {v : V}
    (hh : function_caller_base.held M p σ.heap = some (t, v)) (a : A) (w : W) :
    ∃ h1, function.operator_call M i a σ w =
        some ((M.call t v a w).1.mapError Thrown.by_callable, { σ with heap := h1 },
          (M.call t v a w).2.2) ∧
      function_caller_base.held M p h1 = some (t, (M.call t v a w).2.1) ∧
      (∀ x, x ∉ σ.heap.footprint p → h1.at_ x = σ.heap.at_ x) ∧
      h1.news = σ.heap.news ∧ h1.deletes = σ.heap.deletes ∧
      ({ σ with heap := h1 } : State Ty V).WF M := by
  obtain ⟨h1, hinv, hheld, hfp, hout, hn, hd, -⟩ := invoke_spec hh a w
  refine ⟨h1, ?_, hheld, hout, hn, hd, ?_⟩
  · simp [function.operator_call, hi, hinv]
  · apply hwf.step
    · intro j q hj
      have hj0 : σ.var j = some ⟨some q⟩ := hj
      by_cases hji : j = i
      · subst hji
        rw [hi] at hj0
        simp only [Option.some.injEq, function.mk.injEq] at hj0
        subst hj0
        exact ⟨Or.inl ⟨⟨j, hi⟩, hfp⟩, by simp [hheld]⟩
      · have := hwf.other_kept hi hout hj0 hji
        refine ⟨Or.inl ⟨⟨j, hj0⟩, this.2⟩, ?_⟩
        change (function_caller_base.held M q h1).isSome = true
        rw [this.1]; exact hwf.1 j q hj0
    · intro j k q hj hk
      exact hwf.2.1 j k q hj hk

end container_lemmas

section container_lemmas2

variable {Ty V A R E W : Type} [DecidableEq Ty]

open detail

/-- One container changes its pointer to null, to nothing at all (its lifetime ends), or to
a caller allocated by the step, while the callers of the other containers stay as they
were: exclusive ownership is preserved and the other containers hold what they held. -/
theorem State.WF.replace {M : Env Ty V A R E W} {σ : State Ty V} (hwf : σ.WF M)
    (σ1 : State Ty V) {d : Nat} (X : Option function)
    (hvar : ∀ j, σ1.var j = if j = d then X else σ.var j)
    (hheap : ∀ j p, j ≠ d → σ.var j = some ⟨some p⟩ →
      ∀ a, a ∈ σ.heap.footprint p → σ1.heap.at_ a = σ.heap.at_ a)
    (hX : ∀ q, X = some ⟨some q⟩ → q = σ.heap.mem.length ∧
      (function_caller_base.held M q σ1.heap).isSome ∧
      ∀ a, a ∈ σ1.heap.footprint q → σ.heap.mem.length ≤ a) :
    σ1.WF M ∧ ∀ j, j ≠ d → function.held M j σ1 = function.held M j σ := by
  have key : ∀ i p, σ1.var i = some ⟨some p⟩ →
      (i = d ∧ X = some ⟨some p⟩) ∨ (i ≠ d ∧ σ.var i = some ⟨some p⟩) := by
    intro i p hi
    rw [hvar] at hi
    split_ifs at hi with hid
    · exact Or.inl ⟨hid, hi⟩
    · exact Or.inr ⟨hid, hi⟩
  constructor
  · apply hwf.step
    · intro i p hi
      rcases key i p hi with ⟨-, hx⟩ | ⟨hid, hi0⟩
      · obtain ⟨hq, hheld, hfp⟩ := hX p hx
        exact ⟨Or.inr ⟨hq, hfp⟩, hheld⟩
      · have := caller_held_congr M (hheap i p hid hi0)
        refine ⟨Or.inl ⟨⟨i, hi0⟩, this.2⟩, ?_⟩
        rw [this.1]; exact hwf.1 i p hi0
    · intro i j p hi hj
      rcases key i p hi with ⟨hid, hx⟩ | ⟨hid, hi0⟩ <;>
        rcases key j p hj with ⟨hjd, hx2⟩ | ⟨hjd, hj0⟩
      · rw [hid, hjd]
      · have := (hX p hx).1
        have := hwf.owned_lt hj0
        omega
      · have := (hX p hx2).1
        have := hwf.owned_lt hi0
        omega
      · exact hwf.2.1 i j p hi0 hj0
  · intro j hjd
    apply function.held_congr
    · rw [hvar, if_neg hjd]
    · intro p hp
      exact (caller_held_congr M (hheap j p hjd hp)).1

/-- The copy constructor in a well-formed state. -/
theorem function.copy_ctor_spec {M : Env Ty V A R E W} {σ : State Ty V} (hwf : σ.WF M)
    {s : Nat} {f : function} (hs : σ.var s = some f) :
    ∃ σ1, function.copy_ctor M s σ = some (σ.vars.length, σ1) ∧ σ1.WF M ∧
      (∀ j, j ≠ σ.vars.length → σ1.var j = σ.var j) ∧
      (∀ j, j ≠ σ.vars.length → function.held M j σ1 = function.held M j σ) ∧
      function.held M σ.vars.length σ1 = function.held M s σ ∧
      σ1.var σ.vars.length = some ⟨f.m_caller.map (fun _ => σ.heap.mem.length)⟩ ∧
      (∀ a, a < σ.heap.mem.length → σ1.heap.at_ a = σ.heap.at_ a) ∧
      σ1.heap.deletes = σ.heap.deletes := by
  obtain ⟨c⟩ := f
  cases c with
  | none =>
    refine ⟨(σ.push_var ⟨none⟩).2, ?_, hwf.push_empty, ?_, ?_, ?_, ?_, ?_, ?_⟩
    · simp [function.copy_ctor, hs, State.push_var]
    · intro j hj; rw [State.var_push_var, if_neg hj]
    · intro j hj
      apply function.held_congr
      · rw [State.var_push_var, if_neg hj]
      · intro p _; rfl
    · rw [function.held_of_empty hs, function.held_of_empty]
      rw [State.var_push_var, if_pos rfl]
    · rw [State.var_push_var, if_pos rfl]; rfl
    · intro a _; rfl
    · rfl
  | some p =>
    obtain ⟨t, v, hh⟩ := hwf.caller_held hs
    obtain ⟨h1, hnew, hheld, hold, hfp, hn, hd⟩ := new_spec M t v σ.heap
    have hvar : ∀ j, (({ σ with heap := h1 } : State Ty V).push_var
        ⟨some σ.heap.mem.length⟩).2.var j =
        if j = σ.vars.length then some ⟨some σ.heap.mem.length⟩ else σ.var j := by
      intro j; rw [State.var_push_var]; rfl
    refine ⟨(({ σ with heap := h1 } : State Ty V).push_var ⟨some σ.heap.mem.length⟩).2,
      ?_, ?_, ?_, ?_, ?_, ?_, hold, hd⟩
    · simp [function.copy_ctor, hs, make_copy_spec hh, hnew, State.push_var]
    · exact hwf.push_new hvar (by simp [State.push_var, hheld]) hold hfp
    · intro j hj; rw [hvar, if_neg hj]
    · intro j hj
      apply function.held_congr
      · rw [hvar, if_neg hj]
      · intro q hq
        exact (hwf.old_kept hold hq).1
    · rw [function.held_of_var hs, hh, function.held_of_var (by rw [hvar, if_pos rfl])]
      exact hheld
    · rw [hvar, if_pos rfl]; rfl

end container_lemmas2

section container_lemmas3

variable {Ty V A R E W : Type} [DecidableEq Ty]

open detail

/-- Deleting the caller of container `d`, in a heap that extends the free store of a
well-formed state, releases exactly the footprint of that caller. -/
theorem State.WF.release {M : Env Ty V A R E W} {σ : State Ty V} (hwf : σ.WF M) {d pd : Nat}
    (hd : σ.var d = some ⟨some pd⟩) (h1 : Heap Ty V)
    (hold : ∀ a, a < σ.heap.mem.length → h1.at_ a = σ.heap.at_ a) :
    ∃ h2 t v, function_caller_base.held M pd σ.heap = some (t, v) ∧
      function_caller_base.delete_ M pd h1 = some h2 ∧
      (∀ a, a ∈ σ.heap.footprint pd → h2.at_ a = none) ∧
      (∀ a, a ∉ σ.heap.footprint pd → h2.at_ a = h1.at_ a) ∧
      h2.news = h1.news ∧ h2.deletes = h1.deletes + (if M.fits_small t then 1 else 2) ∧
      (∀ j p, j ≠ d → σ.var j = some ⟨some p⟩ →
        ∀ a, a ∈ σ.heap.footprint p → h2.at_ a = σ.heap.at_ a) := by
  obtain ⟨t, v, hh⟩ := hwf.caller_held hd
  have hk := hwf.old_kept hold hd
  have hh1 : function_caller_base.held M pd h1 = some (t, v) := by rw [hk.1, hh]
  obtain ⟨h2, hdel, hin, hout, hn, hdc, -⟩ := delete_spec hh1
  rw [hk.2] at hin hout
  refine ⟨h2, t, v, hh, hdel, hin, hout, hn, hdc, ?_⟩
  intro j p hj hp a ha
  have hpd : p ≠ pd := by
    rintro rfl
    exact hj (hwf.2.1 j d p hp hd)
  rw [hout a (hwf.2.2 j d p pd hp hd hpd a ha)]
  obtain ⟨t2, v2, hh2⟩ := hwf.caller_held hp
  exact hold a (footprint_lt hh2 a ha)

/-- The call `m_caller.reset(newp)` on container `d`, where `newp` is null or a caller
allocated since the well-formed state `σ`. -/
theorem function.reset_spec {M : Env Ty V A R E W} {σ : State Ty V} (hwf : σ.WF M) {d : Nat}
    {fd : function} (hd : σ.var d = some fd) (h1 : Heap Ty V)
    (hold : ∀ a, a < σ.heap.mem.length → h1.at_ a = σ.heap.at_ a) (newp : Option Nat)
    (hnew : ∀ q, newp = some q → q = σ.heap.mem.length ∧
      (function_caller_base.held M q h1).isSome ∧
      ∀ a, a ∈ h1.footprint q → σ.heap.mem.length ≤ a) :
    ∃ σ1, function.reset M d newp { σ with heap := h1 } = some σ1 ∧ σ1.WF M ∧
      (∀ j, σ1.var j = if j = d then some ⟨newp⟩ else σ.var j) ∧
      (∀ j, j ≠ d → function.held M j σ1 = function.held M j σ) ∧
      (∀ q, newp = some q →
        function_caller_base.held M q σ1.heap = function_caller_base.held M q h1) ∧
      (∀ p, fd.m_caller = some p → ∀ a, a ∈ σ.heap.footprint p → σ1.heap.at_ a = none) ∧
      σ1.heap.news = h1.news ∧
      σ1.heap.deletes = h1.deletes +
        (match function.held M d σ with
          | none => 0
          | some (t, _) => if M.fits_small t then 1 else 2) := by
  have hdl := State.var_lt hd
  have hvar : ∀ (h2 : Heap Ty V) j,
      ({ ({ σ with heap := h1 } : State Ty V).set_var d ⟨newp⟩ with heap := h2 } :
        State Ty V).var j = if j = d then some ⟨newp⟩ else σ.var j := by
    intro h2 j
    exact State.var_set_var (show d < ({ σ with heap := h1 } : State Ty V).vars.length from hdl)
      ⟨newp⟩ j
  obtain ⟨c⟩ := fd
  cases c with
  | none =>
    have hres : function.reset M d newp { σ with heap := h1 } =
        some { ({ σ with heap := h1 } : State Ty V).set_var d ⟨newp⟩ with heap := h1 } := by
      have hd1 : ({ σ with heap := h1 } : State Ty V).var d = some ⟨none⟩ := hd
      simp only [function.reset, hd1, Option.bind_eq_bind, Option.some_bind]
      rfl
    have hrep := hwf.replace { ({ σ with heap := h1 } : State Ty V).set_var d ⟨newp⟩
        with heap := h1 } (some ⟨newp⟩) (hvar h1)
      (by
        intro j p _ hp a ha
        obtain ⟨t2, v2, hh2⟩ := hwf.caller_held hp
        exact hold a (footprint_lt hh2 a ha))
      (by
        intro q hq
        simp only [Option.some.injEq, function.mk.injEq] at hq
        exact hnew q hq)
    refine ⟨_, hres, hrep.1, hvar h1, hrep.2, fun q _ => rfl, ?_, rfl, ?_⟩
    · intro p hp; cases hp
    · rw [function.held_of_empty hd]; rfl
  | some pd =>
    obtain ⟨h2, t, v, hh, hdel, hin, hout, hn, hdc, hfr⟩ := hwf.release hd h1 hold
    have hfresh : ∀ q, newp = some q →
        function_caller_base.held M q h2 = function_caller_base.held M q h1 ∧
          h2.footprint q = h1.footprint q := by
      intro q hq
      obtain ⟨-, -, hfp⟩ := hnew q hq
      apply caller_held_congr M
      intro a ha
      apply hout
      intro hmem
      have := footprint_lt hh a hmem
      have := hfp a ha
      omega
    have hres : function.reset M d newp { σ with heap := h1 } =
        some { ({ σ with heap := h1 } : State Ty V).set_var d ⟨newp⟩ with heap := h2 } := by
      have hd1 : ({ σ with heap := h1 } : State Ty V).var d = some ⟨some pd⟩ := hd
      simp only [function.reset, hd1, Option.bind_eq_bind, Option.some_bind]
      have : (({ σ with heap := h1 } : State Ty V).set_var d ⟨newp⟩).heap = h1 := rfl
      rw [this, hdel]
      rfl
    have hrep := hwf.replace { ({ σ with heap := h1 } : State Ty V).set_var d ⟨newp⟩
        with heap := h2 } (some ⟨newp⟩) (hvar h2) hfr
      (by
        intro q hq
        simp only [Option.some.injEq, function.mk.injEq] at hq
        obtain ⟨hq1, hq2, hq3⟩ := hnew q hq
        refine ⟨hq1, ?_, ?_⟩
        · change (function_caller_base.held M q h2).isSome = true
          rw [(hfresh q hq).1]; exact hq2
        · change ∀ a, a ∈ h2.footprint q → _
          rw [(hfresh q hq).2]; exact hq3)
    refine ⟨_, hres, hrep.1, hvar h2, hrep.2, fun q hq => (hfresh q hq).1, ?_, hn, ?_⟩
    · intro p hp
      simp only [Option.some.injEq] at hp
      subst hp
      exact hin
    · rw [function.held_of_var hd, hh]
      exact hdc

/-- The destructor of a live container in a well-formed state. -/
theorem function.dtor_spec {M : Env Ty V A R E W} {σ : State Ty V} (hwf : σ.WF M) {d : Nat}
    {fd : function} (hd : σ.var d = some fd) :
    ∃ σ1, function.dtor M d σ = some σ1 ∧ σ1.WF M ∧
      (∀ j, σ1.var j = if j = d then none else σ.var j) ∧
      (∀ j, j ≠ d → function.held M j σ1 = function.held M j σ) ∧
      (∀ p, fd.m_caller = some p → ∀ a, a ∈ σ.heap.footprint p → σ1.heap.at_ a = none) ∧
      (fd.m_caller = none → σ1.heap = σ.heap) ∧
      σ1.heap.news = σ.heap.news ∧
      σ1.heap.deletes = σ.heap.deletes +
        (match function.held M d σ with
          | none => 0
          | some (t, _) => if M.fits_small t then 1 else 2) := by
  have hdl := State.var_lt hd
  have hvar : ∀ (h2 : Heap Ty V) j,
      (({ σ with heap := h2 } : State Ty V).end_var d).var j =
        if j = d then none else σ.var j := by
    intro h2 j
    exact State.var_end_var (show d < ({ σ with heap := h2 } : State Ty V).vars.length from hdl) j
  obtain ⟨c⟩ := fd
  cases c with
  | none =>
    have hres : function.dtor M d σ = some (σ.end_var d) := by
      simp [function.dtor, hd]
    have hrep := hwf.replace (σ.end_var d) none (hvar σ.heap)
      (by intro j p _ _ a _; rfl) (by intro q hq; cases hq)
    refine ⟨_, hres, hrep.1, hvar σ.heap, hrep.2, ?_, fun _ => rfl, rfl, ?_⟩
    · intro p hp; cases hp
    · rw [function.held_of_empty hd]; rfl
  | some pd =>
    obtain ⟨h2, t, v, hh, hdel, hin, hout, hn, hdc, hfr⟩ :=
      hwf.release hd σ.heap (fun _ _ => rfl)
    have hres : function.dtor M d σ = some (({ σ with heap := h2 } : State Ty V).end_var d) := by
      simp [function.dtor, hd, hdel]
    have hrep := hwf.replace (({ σ with heap := h2 } : State Ty V).end_var d)
      none (hvar h2) hfr (by intro q hq; cases hq)
    refine ⟨_, hres, hrep.1, hvar h2, hrep.2, ?_, ?_, hn, ?_⟩
    · intro p hp
      simp only [Option.some.injEq] at hp
      subst hp
      exact hin
    · intro hp; cases hp
    · rw [function.held_of_var hd, hh]
      exact hdc

end container_lemmas3

section container_lemmas4

variable {Ty V A R E W : Type} [DecidableEq Ty]

open detail

/-- The copy assignment between two distinct live containers in a well-formed state. -/
theorem function.copy_assign_spec {M : Env Ty V A R E W} {σ : State Ty V} (hwf : σ.WF M)
    {d s : Nat} {fd fs : function} (hd : σ.var d = some fd) (hs : σ.var s = some fs)
    (hds : d ≠ s) :
    ∃ σ1, function.copy_assign M d s σ = some σ1 ∧ σ1.WF M ∧
      (∀ j, j ≠ d → σ1.var j = σ.var j) ∧
      (∀ j, j ≠ d → function.held M j σ1 = function.held M j σ) ∧
      function.held M d σ1 = function.held M s σ ∧
      σ1.var d = some ⟨fs.m_caller.map (fun _ => σ.heap.mem.length)⟩ ∧
      (∀ p, fd.m_caller = some p → ∀ a, a ∈ σ.heap.footprint p → σ1.heap.at_ a = none) ∧
      σ1.heap.news = σ.heap.news +
        (match function.held M s σ with
          | none => 0
          | some (t, _) => if M.fits_small t then 1 else 2) ∧
      σ1.heap.deletes = σ.heap.deletes +
        (match function.held M d σ with
          | none => 0
          | some (t, _) => if M.fits_small t then 1 else 2) := by
  obtain ⟨c⟩ := fs
  cases c with
  | none =>
    obtain ⟨σ1, hres, hwf1, hvar, hheld, -, hrel, hn, hdc⟩ :=
      function.reset_spec hwf hd σ.heap (fun _ _ => rfl) none (by intro q hq; cases hq)
    refine ⟨σ1, ?_, hwf1, ?_, hheld, ?_, ?_, hrel, ?_, hdc⟩
    · have : ({ σ with heap := σ.heap } : State Ty V) = σ := rfl
      rw [this] at hres
      simp [function.copy_assign, hd, hs, hds, hres]
    · intro j hj; rw [hvar, if_neg hj]
    · rw [function.held_of_empty hs, function.held_of_empty]
      rw [hvar, if_pos rfl]
    · rw [hvar, if_pos rfl]; rfl
    · rw [hn, function.held_of_empty hs]; rfl
  | some p =>
    obtain ⟨t, v, hh⟩ := hwf.caller_held hs
    obtain ⟨h1, hnew, hheld1, hold, hfp, hn1, hd1⟩ := new_spec M t v σ.heap
    obtain ⟨σ1, hres, hwf1, hvar, hheld, hq, hrel, hn, hdc⟩ :=
      function.reset_spec hwf hd h1 hold (some σ.heap.mem.length) (by
        intro q hq
        simp only [Option.some.injEq] at hq
        subst hq
        exact ⟨rfl, by simp [hheld1], hfp⟩)
    refine ⟨σ1, ?_, hwf1, ?_, hheld, ?_, ?_, hrel, ?_, ?_⟩
    · simp [function.copy_assign, hd, hs, hds, make_copy_spec hh, hnew, hres]
    · intro j hj; rw [hvar, if_neg hj]
    · rw [function.held_of_var hs, hh, function.held_of_var (by rw [hvar, if_pos rfl]),
        hq _ rfl, hheld1]
    · rw [hvar, if_pos rfl]; rfl
    · rw [hn, hn1, function.held_of_var hs, hh]
    · rw [hdc, hd1]

/-- Exclusive ownership survives a step that leaves the free store alone and hands
pointers from container to container without duplicating any. -/
theorem State.WF.rename {M : Env Ty V A R E W} {σ σ1 : State Ty V} (hwf : σ.WF M)
    (hheap : σ1.heap = σ.heap) (π : Nat → Nat)
    (hπ : ∀ i p, σ1.var i = some ⟨some p⟩ → σ.var (π i) = some ⟨some p⟩)
    (hinj : ∀ i j p, σ1.var i = some ⟨some p⟩ → σ1.var j = some ⟨some p⟩ → π i = π j → i = j) :
    σ1.WF M := by
  apply hwf.step
  · intro i p hi
    rw [hheap]
    exact ⟨Or.inl ⟨⟨π i, hπ i p hi⟩, rfl⟩, hwf.1 _ p (hπ i p hi)⟩
  · intro i j p hi hj
    exact hinj i j p hi hj (hwf.2.1 _ _ p (hπ i p hi) (hπ j p hj))

omit [DecidableEq Ty] in
/-- The move constructor from a live container. -/
theorem function.move_ctor_spec {σ : State Ty V} {s : Nat} {f : function}
    (hs : σ.var s = some f) :
    ∃ σ1, function.move_ctor s σ = some (σ.vars.length, σ1) ∧
      (∀ j, σ1.var j =
        if j = σ.vars.length then some f else if j = s then some ⟨none⟩ else σ.var j) ∧
      σ1.heap = σ.heap := by
  refine ⟨((σ.set_var s ⟨none⟩).push_var ⟨f.m_caller⟩).2, ?_, ?_, rfl⟩
  · simp [function.move_ctor, hs, State.push_var, State.set_var]
  · intro j
    rw [State.var_push_var, State.var_set_var (State.var_lt hs)]
    simp [State.set_var]

theorem function.move_ctor_WF {M : Env Ty V A R E W} {σ σ1 : State Ty V} (hwf : σ.WF M)
    {s : Nat} {f : function} (hs : σ.var s = some f)
    (hvar : ∀ j, σ1.var j =
      if j = σ.vars.length then some f else if j = s then some ⟨none⟩ else σ.var j)
    (hheap : σ1.heap = σ.heap) : σ1.WF M := by
  have hsl := State.var_lt hs
  have key : ∀ i p, σ1.var i = some ⟨some p⟩ →
      (i = σ.vars.length ∧ σ.var s = some ⟨some p⟩) ∨
      (i ≠ σ.vars.length ∧ i ≠ s ∧ σ.var i = some ⟨some p⟩) := by
    intro i p hi
    rw [hvar] at hi
    split_ifs at hi with h1 h2
    · left; exact ⟨h1, by rw [hs, hi]⟩
    · simp at hi
    · right; exact ⟨h1, h2, hi⟩
  apply hwf.rename hheap (fun i => if i = σ.vars.length then s else i)
  · intro i p hi
    rcases key i p hi with ⟨h1, h2⟩ | ⟨h1, h2, h3⟩
    · simp only [h1, if_true]; exact h2
    · simp only [if_neg h1]; exact h3
  · intro i j p hi hj hij
    rcases key i p hi with ⟨h1, h2⟩ | ⟨h1, h2, h3⟩ <;>
      rcases key j p hj with ⟨k1, k2⟩ | ⟨k1, k2, k3⟩
    · rw [h1, k1]
    · simp only [h1, if_true, if_neg k1] at hij
      exact absurd hij.symm k2
    · simp only [k1, if_true, if_neg h1] at hij
      exact absurd hij h2
    · simpa only [if_neg h1, if_neg k1] using hij

omit [DecidableEq Ty] in
/-- The move assignment between two live containers. -/
theorem function.move_assign_spec {σ : State Ty V} {d s : Nat} {fd fs : function}
    (hd : σ.var d = some fd) (hs : σ.var s = some fs) :
    ∃ σ1, function.move_assign d s σ = some σ1 ∧
      (∀ j, σ1.var j = if j = s then some fd else if j = d then some fs else σ.var j) ∧
      σ1.heap = σ.heap := by
  refine ⟨(σ.set_var d ⟨fs.m_caller⟩).set_var s ⟨fd.m_caller⟩, ?_, ?_, rfl⟩
  · simp [function.move_assign, hd, hs]
  · intro j
    have hsl : s < (σ.set_var d ⟨fs.m_caller⟩).vars.length := by
      simpa [State.set_var] using State.var_lt hs
    rw [State.var_set_var hsl, State.var_set_var (State.var_lt hd)]

theorem function.move_assign_WF {M : Env Ty V A R E W} {σ σ1 : State Ty V} (hwf : σ.WF M)
    {d s : Nat} {fd fs : function} (hd : σ.var d = some fd) (hs : σ.var s = some fs)
    (hvar : ∀ j, σ1.var j = if j = s then some fd else if j = d then some fs else σ.var j)
    (hheap : σ1.heap = σ.heap) : σ1.WF M := by
  have key : ∀ i p, σ1.var i = some ⟨some p⟩ →
      (i = s ∧ σ.var d = some ⟨some p⟩) ∨ (i ≠ s ∧ i = d ∧ σ.var s = some ⟨some p⟩) ∨
      (i ≠ s ∧ i ≠ d ∧ σ.var i = some ⟨some p⟩) := by
    intro i p hi
    rw [hvar] at hi
    split_ifs at hi with h1 h2
    · left; exact ⟨h1, by rw [hd, hi]⟩
    · right; left; exact ⟨h1, h2, by rw [hs, hi]⟩
    · right; right; exact ⟨h1, h2, hi⟩
  apply hwf.rename hheap (fun i => if i = s then d else if i = d then s else i)
  · intro i p hi
    show σ.var (if i = s then d else if i = d then s else i) = _
    rcases key i p hi with ⟨h1, h2⟩ | ⟨h1, h2, h3⟩ | ⟨h1, h2, h3⟩
    · rw [if_pos h1]; exact h2
    · rw [if_neg h1, if_pos h2]; exact h3
    · rw [if_neg h1, if_neg h2]; exact h3
  · intro i j p hi hj hij
    have hij2 : (if i = s then d else if i = d then s else i) =
        (if j = s then d else if j = d then s else j) := hij
    rcases key i p hi with ⟨h1, h2⟩ | ⟨h1, h2, h3⟩ | ⟨h1, h2, h3⟩ <;>
      rcases key j p hj with ⟨k1, k2⟩ | ⟨k1, k2, k3⟩ | ⟨k1, k2, k3⟩ <;>
      split_ifs at hij2 <;> omega

end container_lemmas4

section run_lemmas

variable {Ty V A R E W : Type} [DecidableEq Ty]

open detail

/-- One statement of a client program preserves exclusive ownership, and leaves every live
container it does not name as a modified operand with its pointer and its callable. -/
theorem Op.run_frame {M : Env Ty V A R E W} {σ σ1 : State Ty V} {w w1 : W} {op : Op Ty V A}
    (hwf : σ.WF M) (hrun : op.run M σ w = some (σ1, w1)) :
    σ1.WF M ∧ ∀ i, op.modifies i = false → (σ.var i).isSome →
      σ1.var i = σ.var i ∧ function.held M i σ1 = function.held M i σ := by
  have hlive : ∀ i, (σ.var i).isSome → i ≠ σ.vars.length := by
    intro i hi
    cases hv : σ.var i with
    | none => simp [hv] at hi
    | some f => exact Nat.ne_of_lt (State.var_lt hv)
  cases op with
  | default_ctor =>
    simp only [Op.run, function.default_ctor, Option.some.injEq, Prod.mk.injEq] at hrun
    obtain ⟨rfl, -⟩ := hrun
    refine ⟨hwf.push_empty, fun i _ hi => ?_⟩
    have hv : (σ.push_var ⟨none⟩).2.var i = σ.var i := by
      rw [State.var_push_var, if_neg (hlive i hi)]
    exact ⟨hv, function.held_congr hv (fun p _ => rfl)⟩
  | ctor T val =>
    obtain ⟨σ2, hc, hvar, hheld, hold, hfp, -⟩ := function.ctor_spec M T val σ
    simp only [Op.run, hc, Option.map_some', Option.some.injEq, Prod.mk.injEq] at hrun
    obtain ⟨rfl, -⟩ := hrun
    refine ⟨function.ctor_WF hwf hc, fun i _ hi => ?_⟩
    have hv : σ2.var i = σ.var i := by rw [hvar, if_neg (hlive i hi)]
    exact ⟨hv, function.held_congr hv (fun p hp => (hwf.old_kept hold hp).1)⟩
  | copy_ctor s =>
    cases hs : σ.var s with
    | none => simp [Op.run, function.copy_ctor, hs] at hrun
    | some f =>
      obtain ⟨σ2, hc, hwf2, hvar, hheld, -⟩ := function.copy_ctor_spec hwf hs
      simp only [Op.run, hc, Option.map_some', Option.some.injEq, Prod.mk.injEq] at hrun
      obtain ⟨rfl, -⟩ := hrun
      exact ⟨hwf2, fun i _ hi => ⟨hvar i (hlive i hi), hheld i (hlive i hi)⟩⟩
  | move_ctor s =>
    cases hs : σ.var s with
    | none => simp [Op.run, function.move_ctor, hs] at hrun
    | some f =>
      obtain ⟨σ2, hc, hvar, hheap⟩ := function.move_ctor_spec hs
      simp only [Op.run, hc, Option.map_some', Option.some.injEq, Prod.mk.injEq] at hrun
      obtain ⟨rfl, -⟩ := hrun
      refine ⟨function.move_ctor_WF hwf hs hvar hheap, fun i hm hi => ?_⟩
      have his : i ≠ s := by
        intro h; simp [Op.modifies, h] at hm
      have hv : σ2.var i = σ.var i := by rw [hvar, if_neg (hlive i hi), if_neg his]
      exact ⟨hv, function.held_congr hv (fun p _ => by rw [hheap])⟩
  | copy_assign d s =>
    cases hd : σ.var d with
    | none => simp [Op.run, function.copy_assign, hd] at hrun
    | some fd =>
      cases hs : σ.var s with
      | none => simp [Op.run, function.copy_assign, hd, hs] at hrun
      | some fs =>
        by_cases hds : d = s
        · simp only [Op.run, function.copy_assign, hd, hs, hds, ne_eq, not_true_eq_false,
            if_false, Option.bind_eq_bind, Option.some_bind, Option.map_some',
            Option.some.injEq, Prod.mk.injEq] at hrun
          obtain ⟨rfl, -⟩ := hrun
          exact ⟨hwf, fun i _ _ => ⟨rfl, rfl⟩⟩
        · obtain ⟨σ2, hc, hwf2, hvar, hheld, -⟩ := function.copy_assign_spec hwf hd hs hds
          simp only [Op.run, hc, Option.map_some', Option.some.injEq, Prod.mk.injEq] at hrun
          obtain ⟨rfl, -⟩ := hrun
          refine ⟨hwf2, fun i hm _ => ?_⟩
          have hid : i ≠ d := by
            intro h; simp [Op.modifies, h] at hm
          exact ⟨hvar i hid, hheld i hid⟩
  | move_assign d s =>
    cases hd : σ.var d with
    | none => simp [Op.run, function.move_assign, hd] at hrun
    | some fd =>
      cases hs : σ.var s with
      | none => simp [Op.run, function.move_assign, hd, hs] at hrun
      | some fs =>
        obtain ⟨σ2, hc, hvar, hheap⟩ := function.move_assign_spec hd hs
        simp only [Op.run, hc, Option.map_some', Option.some.injEq, Prod.mk.injEq] at hrun
        obtain ⟨rfl, -⟩ := hrun
        refine ⟨function.move_assign_WF hwf hd hs hvar hheap, fun i hm _ => ?_⟩
        have hid : i ≠ d ∧ i ≠ s := by
          constructor <;> intro h <;> simp [Op.modifies, h] at hm
        have hv : σ2.var i = σ.var i := by rw [hvar, if_neg hid.2, if_neg hid.1]
        exact ⟨hv, function.held_congr hv (fun p _ => by rw [hheap])⟩
  | call k a =>
    cases hk : σ.var k with
    | none => simp [Op.run, function.operator_call, hk] at hrun
    | some f =>
      obtain ⟨c⟩ := f
      cases c with
      | none =>
        simp only [Op.run, function.operator_call, hk, Option.bind_eq_bind, Option.some_bind,
          Option.map_some', Option.some.injEq, Prod.mk.injEq] at hrun
        obtain ⟨rfl, -⟩ := hrun
        exact ⟨hwf, fun i _ _ => ⟨rfl, rfl⟩⟩
      | some p =>
        obtain ⟨t, v, hh⟩ := hwf.caller_held hk
        obtain ⟨h1, hc, -, hout, -, -, hwf2⟩ := function.call_spec hwf hk hh a w
        simp only [Op.run, hc, Option.map_some', Option.some.injEq, Prod.mk.injEq] at hrun
        obtain ⟨rfl, -⟩ := hrun
        refine ⟨hwf2, fun i hm _ => ?_⟩
        have hik : i ≠ k := by
          intro h; simp [Op.modifies, h] at hm
        have hv : ({ σ with heap := h1 } : State Ty V).var i = σ.var i := rfl
        exact ⟨hv, function.held_congr hv (fun q hq => (hwf.other_kept hk hout hq hik).1)⟩
  | dtor k =>
    cases hk : σ.var k with
    | none => simp [Op.run, function.dtor, hk] at hrun
    | some f =>
      obtain ⟨σ2, hc, hwf2, hvar, hheld, -⟩ := function.dtor_spec hwf hk
      simp only [Op.run, hc, Option.map_some', Option.some.injEq, Prod.mk.injEq] at hrun
      obtain ⟨rfl, -⟩ := hrun
      refine ⟨hwf2, fun i hm _ => ?_⟩
      have hik : i ≠ k := by
        intro h; simp [Op.modifies, h] at hm
      exact ⟨by rw [hvar, if_neg hik], hheld i hik⟩

/-- In a well-formed state a statement whose operands are live runs without undefined
behaviour. -/
theorem Op.run_defined {M : Env Ty V A R E W} {σ : State Ty V} (hwf : σ.WF M)
    (op : Op Ty V A) (hlive : op.operands_live σ = true) (w : W) :
    (op.run M σ w).isSome = true := by
  have hsome : ∀ i, (σ.var i).isSome = true → ∃ f, σ.var i = some f := by
    intro i hi
    cases hv : σ.var i with
    | none => simp [hv] at hi
    | some f => exact ⟨f, rfl⟩
  cases op with
  | default_ctor => rfl
  | ctor T val =>
    obtain ⟨σ2, hc, -⟩ := function.ctor_spec M T val σ
    simp [Op.run, hc]
  | copy_ctor s =>
    obtain ⟨f, hs⟩ := hsome s hlive
    obtain ⟨σ2, hc, -⟩ := function.copy_ctor_spec hwf hs
    simp [Op.run, hc]
  | move_ctor s =>
    obtain ⟨f, hs⟩ := hsome s hlive
    obtain ⟨σ2, hc, -⟩ := function.move_ctor_spec hs
    simp [Op.run, hc]
  | copy_assign d s =>
    simp only [Op.operands_live, Bool.and_eq_true] at hlive
    obtain ⟨fd, hd⟩ := hsome d hlive.1
    obtain ⟨fs, hs⟩ := hsome s hlive.2
    by_cases hds : d = s
    · simp [Op.run, function.copy_assign, hd, hs, hds]
    · obtain ⟨σ2, hc, -⟩ := function.copy_assign_spec hwf hd hs hds
      simp [Op.run, hc]
  | move_assign d s =>
    simp only [Op.operands_live, Bool.and_eq_true] at hlive
    obtain ⟨fd, hd⟩ := hsome d hlive.1
    obtain ⟨fs, hs⟩ := hsome s hlive.2
    obtain ⟨σ2, hc, -⟩ := function.move_assign_spec hd hs
    simp [Op.run, hc]
  | call k a =>
    obtain ⟨f, hk⟩ := hsome k hlive
    obtain ⟨c⟩ := f
    cases c with
    | none => simp [Op.run, function.operator_call, hk]
    | some p =>
      obtain ⟨t, v, hh⟩ := hwf.caller_held hk
      obtain ⟨h1, hc, -⟩ := function.call_spec hwf hk hh a w
      simp [Op.run, hc]
  | dtor k =>
    obtain ⟨f, hk⟩ := hsome k hlive
    obtain ⟨σ2, hc, -⟩ := function.dtor_spec hwf hk
    simp [Op.run, hc]

/-- A sequence of statements preserves exclusive ownership, and leaves every live container
that none of them names as a modified operand with its pointer and its callable. -/
theorem Op.run_all_frame {M : Env Ty V A R E W} (ops : List (Op Ty V A)) :
    ∀ {σ σ1 : State Ty V} {w w1 : W}, σ.WF M → Op.run_all M ops σ w = some (σ1, w1) →
      σ1.WF M ∧ ∀ i, (∀ op, op ∈ ops → op.modifies i = false) → (σ.var i).isSome →
        σ1.var i = σ.var i ∧ function.held M i σ1 = function.held M i σ := by
  induction ops with
  | nil =>
    intro σ σ1 w w1 hwf hrun
    simp only [Op.run_all, Option.some.injEq, Prod.mk.injEq] at hrun
    obtain ⟨rfl, -⟩ := hrun
    exact ⟨hwf, fun i _ _ => ⟨rfl, rfl⟩⟩
  | cons op ops ih =>
    intro σ σ1 w w1 hwf hrun
    simp only [Op.run_all] at hrun
    cases hstep : op.run M σ w with
    | none => simp [hstep] at hrun
    | some r =>
      obtain ⟨σ2, w2⟩ := r
      simp only [hstep] at hrun
      obtain ⟨hwf2, hfr2⟩ := Op.run_frame hwf hstep
      obtain ⟨hwf1, hfr1⟩ := ih hwf2 hrun
      refine ⟨hwf1, fun i hm hi => ?_⟩
      obtain ⟨hv2, hh2⟩ := hfr2 i (hm op (List.mem_cons_self _ _)) hi
      obtain ⟨hv1, hh1⟩ := hfr1 i (fun o ho => hm o (List.mem_cons_of_mem _ ho))
        (by rw [hv2]; exact hi)
      exact ⟨hv1.trans hv2, hh1.trans hh2⟩

end run_lemmas

section observation_lemmas

variable {Ty V A R E W : Type} [DecidableEq Ty]

open detail

/-- Invocation sees a container only through its pointer and the free store. -/
theorem function.outcome_congr {M : Env Ty V A R E W} {σ σ1 : State Ty V} {i j : Nat}
    (hv : σ1.var j = σ.var i) (hheap : σ1.heap = σ.heap) (a : A) (w : W) :
    function.outcome M j a σ1 w = function.outcome M i a σ w := by
  unfold function.outcome function.operator_call
  rw [hv, hheap]
  cases σ.var i with
  | none => rfl
  | some f =>
    obtain ⟨c⟩ := f
    cases c with
    | none => rfl
    | some p =>
      cases hinv : function_caller_base.invoke M p a σ.heap w with
      | none => simp [hinv]
      | some r => simp [hinv]

/-- Typed recovery sees a container only through its pointer and the free store. -/
theorem function.target_congr {M : Env Ty V A R E W} {σ σ1 : State Ty V} {i j : Nat}
    (hv : σ1.var j = σ.var i) (hheap : σ1.heap = σ.heap) (T : Ty) :
    function.target M T j σ1 = function.target M T i σ := by
  unfold function.target
  rw [hv, hheap]

/-- Typed recovery on a live container in a well-formed state, in terms of the callable
the container holds. -/
theorem function.target_spec {M : Env Ty V A R E W} {σ : State Ty V} (hwf : σ.WF M) {i : Nat}
    {f : function} (hi : σ.var i = some f) (T : Ty) :
    ∃ r, function.target M T i σ = some r ∧
      (∀ ptr, r = some ptr → ∃ v, function.held M i σ = some (T, v) ∧
        σ.heap.load T ptr = some v) ∧
      (r = none → ∀ v, function.held M i σ ≠ some (T, v)) := by
  obtain ⟨c⟩ := f
  cases c with
  | none =>
    refine ⟨none, by simp [function.target, hi], ?_, ?_⟩
    · intro ptr hp; cases hp
    · intro _ v; rw [function.held_of_empty hi]; simp
  | some p =>
    obtain ⟨t, v, hh⟩ := hwf.caller_held hi
    obtain ⟨heq, hne⟩ := get_func_ptr_spec hh T
    by_cases hT : T = t
    · obtain ⟨ptr, hg, hl⟩ := heq hT
      refine ⟨some ptr, by simp [function.target, hi, hg], ?_, ?_⟩
      · intro ptr2 hp
        simp only [Option.some.injEq] at hp
        subst hp
        exact ⟨v, by rw [function.held_of_var hi, hh, hT], hl⟩
      · intro hp; cases hp
    · refine ⟨none, by simp [function.target, hi, hne hT], ?_, ?_⟩
      · intro ptr hp; cases hp
      · intro _ v2 hv2
        rw [function.held_of_var hi, hh] at hv2
        simp only [Option.some.injEq, Prod.mk.injEq] at hv2
        exact hT hv2.1.symm

/-- Whether typed recovery succeeds is decided by the type of the held callable. -/
theorem function.target_isSome {M : Env Ty V A R E W} {σ : State Ty V} (hwf : σ.WF M) {i : Nat}
    {f : function} (hi : σ.var i = some f) (T : Ty) :
    (function.target M T i σ).map Option.isSome =
      some (match function.held M i σ with
        | some (t, _) => decide (t = T)
        | none => false) := by
  obtain ⟨r, hr, hsome, hnone⟩ := function.target_spec hwf hi T
  rw [hr]
  simp only [Option.map_some', Option.some.injEq]
  cases r with
  | some ptr =>
    obtain ⟨v, hv, -⟩ := hsome ptr rfl
    simp [hv]
  | none =>
    have := hnone rfl
    cases hh : function.held M i σ with
    | none => rfl
    | some tv =>
      obtain ⟨t, v⟩ := tv
      have hne : t ≠ T := by
        rintro rfl
        exact this v hh
      simp [hne]

/-- The member `forward_assign` on the cell of a live caller object. -/
theorem forward_assign_spec (M : Env Ty V A R E W) {h : Heap Ty V} {p : Nat} {t : Ty}
    {s0 : storage_t Ty V} (hp : h.at_ p = some (.caller t s0)) (c : V) :
    ∃ h1, func_storage.forward_assign M t p c h = some h1 ∧
      function_caller_base.held M p h1 = some (t, c) ∧
      h1.news = h.news + (if M.fits_small t then 0 else 1) ∧ h1.deletes = h.deletes := by
  have hlt := Heap.at_lt hp
  cases hf : M.fits_small t
  · have h1at := Heap.at_new h (.functor t c)
    have hp1 : (h.operator_new (.functor t c)).2.at_ p = some (.caller t s0) := by
      rw [h1at, if_neg (by omega), hp]
    obtain ⟨h2, hw, hat, hn, hd, -⟩ := Heap.write_cell_total hp1 (.pointer h.mem.length)
    refine ⟨h2, ?_, ?_, ?_, ?_⟩
    · simp only [func_storage.forward_assign, hf]
      simp only [Heap.operator_new] at hw ⊢
      simp at hw ⊢
      exact hw
    · rw [held_indirect hf]
      refine ⟨h.mem.length, by rw [hat]; simp, ?_⟩
      rw [hat, if_neg (by omega), h1at]; simp
    · rw [hn]; simp [Heap.operator_new]
    · rw [hd]; simp [Heap.operator_new]
  · obtain ⟨h2, hw, hat, hn, hd, -⟩ := Heap.write_cell_total hp (.object t c)
    refine ⟨h2, ?_, ?_, ?_, ?_⟩
    · simp only [func_storage.forward_assign, hf, if_true]
      exact hw
    · rw [held_inline hf, hat]; simp
    · rw [hn]; simp
    · exact hd

/-- The member `destruct` on the cell of a caller object that holds a callable. -/
theorem destruct_spec {M : Env Ty V A R E W} {p : Nat} {h : Heap Ty V} {t : Ty} {v : V}
    (hh : function_caller_base.held M p h = some (t, v)) :
    ∃ h1, func_storage.destruct M t p h = some h1 ∧
      h1.news = h.news ∧ h1.deletes = h.deletes + (if M.fits_small t then 0 else 1) := by
  obtain ⟨ref, hgf, hld, hcase⟩ := get_func_spec hh
  rcases hcase with ⟨hf, rfl, hp⟩ | ⟨hf, q, rfl, hp, hq⟩
  · obtain ⟨h1, hw, -, hn, hd, -⟩ := Heap.write_cell_total hp .indeterminate
    exact ⟨h1, by simp [func_storage.destruct, hf, hgf, hld, hw], hn, by rw [hd]; simp [hf]⟩
  · obtain ⟨h1, hdel, -, hn, hd, -⟩ := Heap.operator_delete_spec hq
    have hgp : func_storage.get_func_ptr M t p h = some (.on_heap q) := hgf
    exact ⟨h1, by simp [func_storage.destruct, hf, hgp, hld, hdel], hn, by rw [hd]; simp [hf]⟩

omit [DecidableEq Ty] in
/-- A callable's exception is never the container's own `bad_function_call`. -/
theorem mapError_ne_bad (r : Except E R) :
    r.mapError Thrown.by_callable ≠ (.error Thrown.bad_function_call : Except (Thrown E) R) := by
  cases r <;> simp [Except.mapError]

end observation_lemmas

section claims

variable {Ty V A R E W : Type} [DecidableEq Ty]

open detail

/-- Construction from a callable followed by an invocation. -/
theorem function.ctor_call_spec (M : Env Ty V A R E W) (t : Ty) (c : V) (a : A)
    (σ : State Ty V) (w : W) :
    ∃ σ1 σ2, function.ctor M t c σ = some (σ.vars.length, σ1) ∧
      σ1.var σ.vars.length = some ⟨some σ.heap.mem.length⟩ ∧
      function.operator_call M σ.vars.length a σ1 w =
        some ((M.call t c a w).1.mapError Thrown.by_callable, σ2, (M.call t c a w).2.2) ∧
      function.held M σ.vars.length σ2 = some (t, (M.call t c a w).2.1) := by
  obtain ⟨σ1, hc, hvar, hheld, -⟩ := function.ctor_spec M t c σ
  have hi : σ1.var σ.vars.length = some ⟨some σ.heap.mem.length⟩ := by rw [hvar, if_pos rfl]
  obtain ⟨h1, hinv, hheld1, -⟩ := invoke_spec hheld a w
  refine ⟨σ1, { σ1 with heap := h1 }, hc, hi, ?_, ?_⟩
  · simp [function.operator_call, hi, hinv]
  · rw [function.held_of_var
      (show ({ σ1 with heap := h1 } : State Ty V).var σ.vars.length = _ from hi)]
    exact hheld1

/-- C1: for every callable `c` of any type `t`, every argument tuple and every state,
`function(c)` succeeds, and invoking the new container returns what the call operator of
`t` returns on `c` (a thrown exception is passed on unchanged), leaves the outside world as
the direct call leaves it, and leaves the stored callable in the state the direct call
leaves `c` in. -/
theorem C1_invocation_equivalence (M : Env Ty V A R E W) (t : Ty) (c : V) (a : A)
    (σ : State Ty V) (w : W) :
    ∃ i σ1 σ2, function.ctor M t c σ = some (i, σ1) ∧
      function.operator_call M i a σ1 w =
        some ((M.call t c a w).1.mapError Thrown.by_callable, σ2, (M.call t c a w).2.2) ∧
      function.held M i σ2 = some (t, (M.call t c a w).2.1) := by
  obtain ⟨σ1, σ2, hc, -, hcall, hheld⟩ := function.ctor_call_spec M t c a σ w
  exact ⟨_, σ1, σ2, hc, hcall, hheld⟩

/-- C2: in a well-formed state, invoking a live container returns, and it throws the
container's own `bad_function_call` exactly when `m_caller` is null; with a non-null
`m_caller` the call is the caller's `invoke`; `operator bool` is true iff a caller is
owned.  A default-constructed container converts to false and throws `bad_function_call`
for every argument tuple; a container constructed from a callable converts to true and
never throws `bad_function_call` of its own. -/
theorem C2_bad_function_call_iff_empty (M : Env Ty V A R E W) (σ : State Ty V)
    (hwf : σ.WF M) (i : Nat) (f : function) (hi : σ.var i = some f) (a : A) (w : W) :
    function.operator_bool i σ = some f.m_caller.isSome ∧
    (∃ r σ1 w1, function.operator_call M i a σ w = some (r, σ1, w1) ∧
      (r = .error Thrown.bad_function_call ↔ f.m_caller = none)) ∧
    (∀ p, f.m_caller = some p → function.operator_call M i a σ w =
      (function_caller_base.invoke M p a σ.heap w).map
        (fun x => (x.1.mapError Thrown.by_callable, { σ with heap := x.2.1 }, x.2.2))) ∧
    (function.operator_bool (function.default_ctor σ).1 (function.default_ctor σ).2 =
        some false ∧
      function.operator_call M (function.default_ctor σ).1 a (function.default_ctor σ).2 w =
        some (.error Thrown.bad_function_call, (function.default_ctor σ).2, w)) ∧
    (∀ t c, ∃ j σ1 r σ2 w1, function.ctor M t c σ = some (j, σ1) ∧
      function.operator_bool j σ1 = some true ∧
      function.operator_call M j a σ1 w = some (r, σ2, w1) ∧
      r ≠ .error Thrown.bad_function_call) := by
  refine ⟨by simp [function.operator_bool, hi], ?_, ?_, ?_, ?_⟩
  · obtain ⟨c⟩ := f
    cases c with
    | none =>
      exact ⟨.error Thrown.bad_function_call, σ, w, by simp [function.operator_call, hi],
        by simp⟩
    | some p =>
      obtain ⟨t, v, hh⟩ := hwf.caller_held hi
      obtain ⟨h1, hc, -⟩ := function.call_spec hwf hi hh a w
      exact ⟨_, _, _, hc, by simpa using mapError_ne_bad _⟩
  · intro p hp
    obtain ⟨c⟩ := f
    simp only at hp
    subst hp
    cases hinv : function_caller_base.invoke M p a σ.heap w <;>
      simp [function.operator_call, hi, hinv]
  · have hv : (function.default_ctor σ).2.var (function.default_ctor σ).1 = some ⟨none⟩ := by
      simp only [function.default_ctor]
      rw [State.var_push_var]
      simp [State.push_var]
    exact ⟨by simp [function.operator_bool, hv], by simp [function.operator_call, hv]⟩
  · intro t c
    obtain ⟨σ1, σ2, hc, hv, hcall, -⟩ := function.ctor_call_spec M t c a σ w
    refine ⟨_, _, _, _, _, hc, ?_, hcall, mapError_ne_bad _⟩
    simp [function.operator_bool, hv]

end claims

section claims2

variable {Ty V A R E W : Type} [DecidableEq Ty]

open detail

/-- C3: in a well-formed state, `target<T>()` on a live container returns without
undefined behaviour; the result is non-null iff the container holds a callable whose type
is exactly `T`, and then the pointer designates the held callable; on an empty container it
is null for every `T`.  For a container just constructed from a callable `c` of type `t`,
`target<T>()` is non-null iff `T = t`, and the pointee is `c`. -/
theorem C3_target_exact (M : Env Ty V A R E W) (σ : State Ty V) (hwf : σ.WF M) (i : Nat)
    (f : function) (hi : σ.var i = some f) (T : Ty) :
    (∃ r, function.target M T i σ = some r ∧
      (r.isSome = true ↔ ∃ v, function.held M i σ = some (T, v)) ∧
      (∀ ptr, r = some ptr → ∃ v, function.held M i σ = some (T, v) ∧
        σ.heap.load T ptr = some v) ∧
      (f.m_caller = none → r = none)) ∧
    (∀ t c, ∃ j σ1 r, function.ctor M t c σ = some (j, σ1) ∧
      function.target M T j σ1 = some r ∧ (r.isSome = true ↔ T = t) ∧
      ∀ ptr, r = some ptr → σ1.heap.load T ptr = some c) := by
  constructor
  · obtain ⟨r, hr, hsome, hnone⟩ := function.target_spec hwf hi T
    refine ⟨r, hr, ?_, hsome, ?_⟩
    · constructor
      · intro hr2
        cases r with
        | none => cases hr2
        | some ptr =>
          obtain ⟨v, hv, -⟩ := hsome ptr rfl
          exact ⟨v, hv⟩
      · rintro ⟨v, hv⟩
        cases r with
        | none => exact absurd hv (hnone rfl v)
        | some ptr => rfl
    · intro hf
      cases r with
      | none => rfl
      | some ptr =>
        obtain ⟨v, hv, -⟩ := hsome ptr rfl
        obtain ⟨c⟩ := f
        simp only at hf
        subst hf
        rw [function.held_of_empty hi] at hv
        cases hv
  · intro t c
    obtain ⟨σ1, hc, hvar, hheld, -⟩ := function.ctor_spec M t c σ
    have hj : σ1.var σ.vars.length = some ⟨some σ.heap.mem.length⟩ := by rw [hvar, if_pos rfl]
    obtain ⟨heq, hne⟩ := get_func_ptr_spec hheld T
    by_cases hT : T = t
    · obtain ⟨ptr, hg, hl⟩ := heq hT
      refine ⟨_, σ1, some ptr, hc, by simp [function.target, hj, hg], by simp [hT], ?_⟩
      intro ptr2 hp
      simp only [Option.some.injEq] at hp
      subst hp
      exact hl
    · refine ⟨_, σ1, none, hc, by simp [function.target, hj, hne hT], by simp [hT], ?_⟩
      intro ptr hp; cases hp

/-- C8 (amended): constructing a container from a callable always allocates the caller
object; the storage cell adds no allocation under the inline layout and exactly one under
the indirect layout, so construction performs one `new` when `fits_storage` holds for the
type and two otherwise, and no `delete`.  Destroying that container performs as many
`delete`s (one or two) and no `new`.  At the level of the cell alone, `forward_assign`
performs zero or one `new` and `destruct` zero or one `delete`. -/
theorem C8_allocation_counts (M : Env Ty V A R E W) (t : Ty) (c : V) (σ : State Ty V) :
    (∃ i σ1 σ2, function.ctor M t c σ = some (i, σ1) ∧
      σ1.heap.news = σ.heap.news + (if M.fits_small t then 1 else 2) ∧
      σ1.heap.deletes = σ.heap.deletes ∧
      function.dtor M i σ1 = some σ2 ∧
      σ2.heap.deletes = σ1.heap.deletes + (if M.fits_small t then 1 else 2) ∧
      σ2.heap.news = σ1.heap.news) ∧
    (∃ h1 h2,
      func_storage.forward_assign M t (σ.heap.operator_new (.caller t .indeterminate)).1 c
        (σ.heap.operator_new (.caller t .indeterminate)).2 = some h1 ∧
      h1.news = (σ.heap.operator_new (.caller t .indeterminate)).2.news +
        (if M.fits_small t then 0 else 1) ∧
      func_storage.destruct M t (σ.heap.operator_new (.caller t .indeterminate)).1 h1 =
        some h2 ∧
      h2.deletes = h1.deletes + (if M.fits_small t then 0 else 1)) := by
  constructor
  · obtain ⟨σ1, hc, hvar, hheld, -, -, hn, hd⟩ := function.ctor_spec M t c σ
    have hi : σ1.var σ.vars.length = some ⟨some σ.heap.mem.length⟩ := by rw [hvar, if_pos rfl]
    obtain ⟨h2, hdel, -, -, hn2, hd2, -⟩ := delete_spec hheld
    refine ⟨_, σ1, ({ σ1 with heap := h2 } : State Ty V).end_var σ.vars.length, hc, hn, hd,
      ?_, hd2, hn2⟩
    simp [function.dtor, hi, hdel]
  · have hp : (σ.heap.operator_new (.caller t .indeterminate)).2.at_
        (σ.heap.operator_new (.caller t .indeterminate)).1 =
        some (.caller t .indeterminate) := by
      rw [Heap.at_new]; simp [Heap.operator_new]
    obtain ⟨h1, hfa, hheld, hn, -⟩ := forward_assign_spec M hp c
    obtain ⟨h2, hds, -, hd⟩ := destruct_spec hheld
    exact ⟨h1, h2, hfa, hn, hds, hd⟩

end claims2

/-- C8 (counterexample): `Adder` meets the specified eligibility test and has the inline
layout, yet constructing a container from `Adder{5}` in the initial state performs one
heap allocation, not none; `Tally` does not qualify, and constructing a container from
`Tally{5}` performs two heap allocations and destroying it two deallocations, not one. -/
theorem C8_counterexample :
    detail.inline_eligible_spec 8 8 (exTraits .Adder) = true ∧
    exEnv.fits_small .Adder = true ∧
    (State.empty : State ExTy Int).heap.news = 0 ∧
    (function.ctor exEnv .Adder 5 State.empty).map (fun x => x.2.heap.news) = some 1 ∧
    detail.inline_eligible_spec 8 8 (exTraits .Tally) = false ∧
    exEnv.fits_small .Tally = false ∧
    (function.ctor exEnv .Tally 5 State.empty).map (fun x => x.2.heap.news) = some 2 ∧
    ((function.ctor exEnv .Tally 5 State.empty).bind
      (fun x => function.dtor exEnv x.1 x.2)).map (fun σ => σ.heap.deletes) = some 2 := by
  decide

/-- Exclusive ownership holds in the example state `exAdder`. -/
theorem exAdder_WF : exAdder.WF exEnv :=
  function.ctor_WF (State.WF_empty exEnv)
    (rfl : function.ctor exEnv .Adder 5 State.empty = some (0, exAdder))

/-- Exclusive ownership holds in the example state `exTally`. -/
theorem exTally_WF : exTally.WF exEnv :=
  function.ctor_WF (State.WF_empty exEnv)
    (rfl : function.ctor exEnv .Tally 5 State.empty = some (0, exTally))

/-- Exclusive ownership holds in the example state `exTallyEmpty`. -/
theorem exTallyEmpty_WF : exTallyEmpty.WF exEnv :=
  exTally_WF.push_empty

/-- C2 at the container holding `Adder{5}`: it converts to true. -/
theorem C2_witness :
    exAdder.var 0 = some ⟨some 0⟩ ∧ function.operator_bool 0 exAdder = some true :=
  ⟨rfl, (C2_bad_function_call_iff_empty exEnv exAdder exAdder_WF 0 ⟨some 0⟩ rfl 3 0).1⟩

/-- C3 at the container holding `Adder{5}`: `target<Adder>()` is a pointer to `{5}` and
`target<int>()` is null. -/
theorem C3_witness :
    exAdder.var 0 = some ⟨some 0⟩ ∧
    (∃ r, function.target exEnv .Adder 0 exAdder = some r ∧
      (r.isSome = true ↔ ∃ v, function.held exEnv 0 exAdder = some (.Adder, v)) ∧
      (∀ ptr, r = some ptr → ∃ v, function.held exEnv 0 exAdder = some (.Adder, v) ∧
        exAdder.heap.load .Adder ptr = some v) ∧
      ((⟨some 0⟩ : function).m_caller = none → r = none)) ∧
    function.target exEnv .Adder 0 exAdder = some (some (.in_cell 0)) ∧
    exAdder.heap.load .Adder (.in_cell 0) = some 5 ∧
    function.target exEnv .int_ 0 exAdder = some none :=
  ⟨rfl, (C3_target_exact exEnv exAdder exAdder_WF 0 ⟨some 0⟩ rfl .Adder).1, rfl, rfl, rfl⟩

section claims3

variable {Ty V A R E W : Type} [DecidableEq Ty]

open detail

/-- C4: in a well-formed state with a live source `s`.  Copy construction succeeds and
yields a new container that is empty iff the source is, holds a callable of the same type
and value as the source (so `target<T>()` succeeds for the same `T` and every invocation
has the same outcome), and, when non-empty, owns a caller at a fresh address; the source
keeps its pointer and its callable.  Copy assignment to a different live container `d`
does the same for `d` and releases every slot of the caller `d` owned before.  Copy
assignment of a container to itself returns the state unchanged.  Exclusive ownership is
preserved throughout. -/
theorem C4_copy (M : Env Ty V A R E W) (σ : State Ty V) (hwf : σ.WF M) (s : Nat)
    (fs : function) (hs : σ.var s = some fs) :
    (∃ σ1, function.copy_ctor M s σ = some (σ.vars.length, σ1) ∧ σ1.WF M ∧
      function.operator_bool σ.vars.length σ1 = function.operator_bool s σ ∧
      function.held M σ.vars.length σ1 = function.held M s σ ∧
      (∀ T, (function.target M T σ.vars.length σ1).map Option.isSome =
        (function.target M T s σ).map Option.isSome) ∧
      (∀ a w, function.outcome M σ.vars.length a σ1 w = function.outcome M s a σ w ∧
        (function.outcome M s a σ w).isSome = true) ∧
      (∀ p, fs.m_caller = some p → ∃ q, σ1.var σ.vars.length = some ⟨some q⟩ ∧ q ≠ p ∧
        σ.heap.at_ q = none) ∧
      σ1.var s = σ.var s ∧ function.held M s σ1 = function.held M s σ) ∧
    (∀ d fd, σ.var d = some fd → d ≠ s →
      ∃ σ1, function.copy_assign M d s σ = some σ1 ∧ σ1.WF M ∧
        function.operator_bool d σ1 = function.operator_bool s σ ∧
        function.held M d σ1 = function.held M s σ ∧
        (∀ T, (function.target M T d σ1).map Option.isSome =
          (function.target M T s σ).map Option.isSome) ∧
        (∀ a w, function.outcome M d a σ1 w = function.outcome M s a σ w ∧
          (function.outcome M s a σ w).isSome = true) ∧
        (∀ p, fs.m_caller = some p → ∃ q, σ1.var d = some ⟨some q⟩ ∧ q ≠ p ∧
          σ.heap.at_ q = none) ∧
        σ1.var s = σ.var s ∧ function.held M s σ1 = function.held M s σ ∧
        (∀ p, fd.m_caller = some p → ∀ a, a ∈ σ.heap.footprint p → σ1.heap.at_ a = none)) ∧
    function.copy_assign M s s σ = some σ := by
  have hsl := State.var_lt hs
  have hfresh : σ.heap.at_ σ.heap.mem.length = none := by
    simp [Heap.at_]
  have hsome : ∀ a w, (function.outcome M s a σ w).isSome = true := by
    intro a w
    rw [function.outcome_eq hwf (by simp [hs]) a w]; rfl
  -- what follows from "the destination is live, points where the copy was put, and holds
  -- what the source held", for either kind of copy
  have common : ∀ (σ1 : State Ty V) (j : Nat), σ1.WF M →
      σ1.var j = some ⟨fs.m_caller.map (fun _ => σ.heap.mem.length)⟩ →
      function.held M j σ1 = function.held M s σ →
      function.operator_bool j σ1 = function.operator_bool s σ ∧
      (∀ T, (function.target M T j σ1).map Option.isSome =
        (function.target M T s σ).map Option.isSome) ∧
      (∀ a w, function.outcome M j a σ1 w = function.outcome M s a σ w ∧
        (function.outcome M s a σ w).isSome = true) ∧
      (∀ p, fs.m_caller = some p → ∃ q, σ1.var j = some ⟨some q⟩ ∧ q ≠ p ∧
        σ.heap.at_ q = none) := by
    intro σ1 j hwf1 hj hheld
    refine ⟨?_, ?_, ?_, ?_⟩
    · simp only [function.operator_bool, hj, hs, Option.bind_eq_bind, Option.some_bind]
      cases fs.m_caller <;> rfl
    · intro T
      rw [function.target_isSome hwf1 hj, function.target_isSome hwf hs, hheld]
    · intro a w
      refine ⟨?_, hsome a w⟩
      rw [function.outcome_eq hwf1 (by simp [hj]) a w,
        function.outcome_eq hwf (by simp [hs]) a w, hheld]
    · intro p hp
      refine ⟨σ.heap.mem.length, by rw [hj, hp]; rfl, ?_, hfresh⟩
      have hsp : σ.var s = some ⟨some p⟩ := by
        rw [hs]; obtain ⟨c⟩ := fs; simp only at hp; rw [hp]
      exact Nat.ne_of_gt (hwf.owned_lt hsp)
  refine ⟨?_, ?_, ?_⟩
  · obtain ⟨σ1, hc, hwf1, hvar, hheld, hnew, hj, -⟩ := function.copy_ctor_spec hwf hs
    obtain ⟨h1, h2, h3, h4⟩ := common σ1 σ.vars.length hwf1 hj hnew
    exact ⟨σ1, hc, hwf1, h1, hnew, h2, h3, h4, hvar s (Nat.ne_of_lt hsl),
      hheld s (Nat.ne_of_lt hsl)⟩
  · intro d fd hd hds
    obtain ⟨σ1, hc, hwf1, hvar, hheld, hnew, hj, hrel, -⟩ :=
      function.copy_assign_spec hwf hd hs hds
    obtain ⟨h1, h2, h3, h4⟩ := common σ1 d hwf1 hj hnew
    exact ⟨σ1, hc, hwf1, h1, hnew, h2, h3, h4, hvar s (Ne.symm hds), hheld s (Ne.symm hds),
      hrel⟩
  · simp [function.copy_assign, hs]

/-- C5: move construction from a live container `i` succeeds; the new container has
exactly the pointer `i` had, `i` is left with a null pointer, and the free store is
untouched.  So the new container is empty iff `i` was, holds what `i` held, and every
invocation and every `target<T>()` on it gives what it would have given on `i`.
Destroying `i` afterwards succeeds, leaves the free store untouched, and the new container
still holds the same callable with the same behaviour. -/
theorem C5_move_ctor (M : Env Ty V A R E W) (σ : State Ty V) (i : Nat) (f : function)
    (hi : σ.var i = some f) :
    ∃ σ1 σ2, function.move_ctor i σ = some (σ.vars.length, σ1) ∧
      σ1.var σ.vars.length = some f ∧ σ1.var i = some ⟨none⟩ ∧ σ1.heap = σ.heap ∧
      function.operator_bool σ.vars.length σ1 = function.operator_bool i σ ∧
      function.operator_bool i σ1 = some false ∧
      function.held M σ.vars.length σ1 = function.held M i σ ∧
      (∀ a w, function.outcome M σ.vars.length a σ1 w = function.outcome M i a σ w) ∧
      (∀ T, function.target M T σ.vars.length σ1 = function.target M T i σ) ∧
      function.dtor M i σ1 = some σ2 ∧ σ2.heap = σ1.heap ∧
      σ2.var σ.vars.length = some f ∧
      function.held M σ.vars.length σ2 = function.held M i σ ∧
      (∀ a w, function.outcome M σ.vars.length a σ2 w = function.outcome M i a σ w) ∧
      (∀ T, function.target M T σ.vars.length σ2 = function.target M T i σ) := by
  have hil := State.var_lt hi
  obtain ⟨σ1, hc, hvar, hheap⟩ := function.move_ctor_spec hi
  have hj : σ1.var σ.vars.length = some f := by rw [hvar, if_pos rfl]
  have hi1 : σ1.var i = some ⟨none⟩ := by
    rw [hvar, if_neg (Nat.ne_of_lt hil), if_pos rfl]
  have hil1 := State.var_lt hi1
  have hj2 : (σ1.end_var i).var σ.vars.length = some f := by
    rw [State.var_end_var hil1, if_neg (Nat.ne_of_gt hil), hj]
  have hv1 : σ1.var σ.vars.length = σ.var i := by rw [hj, hi]
  have hv2 : (σ1.end_var i).var σ.vars.length = σ.var i := by rw [hj2, hi]
  have hheap2 : (σ1.end_var i).heap = σ.heap := hheap
  refine ⟨σ1, σ1.end_var i, hc, hj, hi1, hheap, ?_, ?_, ?_, ?_, ?_, ?_, rfl, hj2, ?_, ?_, ?_⟩
  · simp [function.operator_bool, hj, hi]
  · simp [function.operator_bool, hi1]
  · exact function.held_congr hv1 (fun p _ => by rw [hheap])
  · exact fun a w => function.outcome_congr hv1 hheap a w
  · exact fun T => function.target_congr hv1 hheap T
  · simp [function.dtor, hi1]
  · exact function.held_congr hv2 (fun p _ => by rw [hheap2])
  · exact fun a w => function.outcome_congr hv2 hheap2 a w
  · exact fun T => function.target_congr hv2 hheap2 T

/-- C6: move assignment between live containers `d` (destination) and `s` (source)
succeeds; afterwards `d` has the pointer `s` had and `s` has the pointer `d` had, every
other container is as before, and the free store (slots and the counts of `new` and
`delete`) is untouched.  So `d` holds what `s` held, `s` holds what `d` held, and `s` is
empty afterwards iff `d` was empty before. -/
theorem C6_move_assign_swaps (M : Env Ty V A R E W) (σ : State Ty V) (d s : Nat)
    (fd fs : function) (hd : σ.var d = some fd) (hs : σ.var s = some fs) :
    ∃ σ1, function.move_assign d s σ = some σ1 ∧
      σ1.var d = some fs ∧ σ1.var s = some fd ∧
      (∀ j, j ≠ d → j ≠ s → σ1.var j = σ.var j) ∧
      σ1.heap = σ.heap ∧
      function.held M d σ1 = function.held M s σ ∧
      function.held M s σ1 = function.held M d σ ∧
      function.operator_bool s σ1 = function.operator_bool d σ ∧
      function.operator_bool d σ1 = function.operator_bool s σ := by
  obtain ⟨σ1, hc, hvar, hheap⟩ := function.move_assign_spec hd hs
  have hd1 : σ1.var d = some fs := by
    rw [hvar]
    by_cases h : d = s
    · subst h; rw [if_pos rfl, ← hd, hs]
    · rw [if_neg h, if_pos rfl]
  have hs1 : σ1.var s = some fd := by rw [hvar, if_pos rfl]
  refine ⟨σ1, hc, hd1, hs1, ?_, hheap, ?_, ?_, ?_, ?_⟩
  · intro j hjd hjs; rw [hvar, if_neg hjs, if_neg hjd]
  · exact function.held_congr (by rw [hd1, hs]) (fun p _ => by rw [hheap])
  · exact function.held_congr (by rw [hs1, hd]) (fun p _ => by rw [hheap])
  · simp [function.operator_bool, hs1, hd]
  · simp [function.operator_bool, hd1, hs]

end claims3

section claims4

variable {Ty V A R E W : Type} [DecidableEq Ty]

open detail

/-- After a copy from `a` to `b` (of either kind) that preserved exclusive ownership, left
`a` alone and gave `b` what `a` held: the two containers share no caller and no slot, and
statements that do not modify one of them leave the outcome of invoking it unchanged. -/
theorem function.copy_independent {M : Env Ty V A R E W} {σ σ1 : State Ty V} (hwf : σ.WF M)
    (hwf1 : σ1.WF M) {a b : Nat} {fa : function} (ha : σ.var a = some fa) (hab : a ≠ b)
    (hva : σ1.var a = σ.var a) (hha : function.held M a σ1 = function.held M a σ)
    (hvb : (σ1.var b).isSome = true) (hhb : function.held M b σ1 = function.held M a σ) :
    (∀ p q, σ1.var a = some ⟨some p⟩ → σ1.var b = some ⟨some q⟩ →
      p ≠ q ∧ ∀ x, x ∈ σ1.heap.footprint p → x ∉ σ1.heap.footprint q) ∧
    (∀ (ops : List (Op Ty V A)) σ2 w w2, (∀ op, op ∈ ops → op.modifies a = false) →
      Op.run_all M ops σ1 w = some (σ2, w2) →
      ∀ args w3, function.outcome M a args σ2 w3 = function.outcome M a args σ w3 ∧
        (function.outcome M a args σ w3).isSome = true) ∧
    (∀ (ops : List (Op Ty V A)) σ2 w w2, (∀ op, op ∈ ops → op.modifies b = false) →
      Op.run_all M ops σ1 w = some (σ2, w2) →
      ∀ args w3, function.outcome M b args σ2 w3 = function.outcome M a args σ w3 ∧
        (function.outcome M a args σ w3).isSome = true) := by
  have hsome : ∀ args w3, (function.outcome M a args σ w3).isSome = true := by
    intro args w3
    rw [function.outcome_eq hwf (by simp [ha]) args w3]; rfl
  refine ⟨?_, ?_, ?_⟩
  · intro p q hp hq
    have hpq : p ≠ q := by
      rintro rfl
      exact hab (hwf1.2.1 a b p hp hq)
    exact ⟨hpq, hwf1.2.2 a b p q hp hq hpq⟩
  · intro ops σ2 w w2 hm hrun args w3
    obtain ⟨hwf2, hfr⟩ := Op.run_all_frame ops hwf1 hrun
    have hlive : (σ1.var a).isSome = true := by rw [hva, ha]; rfl
    obtain ⟨hv2, hh2⟩ := hfr a hm hlive
    refine ⟨?_, hsome args w3⟩
    rw [function.outcome_eq hwf2 (by rw [hv2]; exact hlive) args w3,
      function.outcome_eq hwf (by simp [ha]) args w3, hh2, hha]
  · intro ops σ2 w w2 hm hrun args w3
    obtain ⟨hwf2, hfr⟩ := Op.run_all_frame ops hwf1 hrun
    obtain ⟨hv2, hh2⟩ := hfr b hm hvb
    refine ⟨?_, hsome args w3⟩
    rw [function.outcome_eq hwf2 (by rw [hv2]; exact hvb) args w3,
      function.outcome_eq hwf (by simp [ha]) args w3, hh2, hhb]

/-- C7: in a well-formed state with a live container `a`, let `b` be a copy of `a`, made
by copy construction or by copy assignment to another live container.  Then `a` and `b`
own different callers whose footprints (caller object and, under the indirect layout, the
heap callable) are disjoint.  After any sequence of statements that runs without undefined
behaviour and never names `a` as a modified operand (invocations of `b`, assignments to
`b`, destruction of `b`, anything on other containers), every invocation of `a` has the
outcome it had before the copy (the same returned value or exception and the same effect
on the outside world, for every argument tuple and every outside world it is run in); and
symmetrically, after any such sequence that never modifies `b`, every invocation of `b`
has the outcome that invoking `a` had before the copy. -/
theorem C7_deep_copy_independence (M : Env Ty V A R E W) (σ : State Ty V) (hwf : σ.WF M)
    (a : Nat) (fa : function) (ha : σ.var a = some fa) :
    (∃ σ1, function.copy_ctor M a σ = some (σ.vars.length, σ1) ∧
      (∀ p q, σ1.var a = some ⟨some p⟩ → σ1.var σ.vars.length = some ⟨some q⟩ →
        p ≠ q ∧ ∀ x, x ∈ σ1.heap.footprint p → x ∉ σ1.heap.footprint q) ∧
      (∀ (ops : List (Op Ty V A)) σ2 w w2, (∀ op, op ∈ ops → op.modifies a = false) →
        Op.run_all M ops σ1 w = some (σ2, w2) →
        ∀ args w3, function.outcome M a args σ2 w3 = function.outcome M a args σ w3 ∧
          (function.outcome M a args σ w3).isSome = true) ∧
      (∀ (ops : List (Op Ty V A)) σ2 w w2,
        (∀ op, op ∈ ops → op.modifies σ.vars.length = false) →
        Op.run_all M ops σ1 w = some (σ2, w2) →
        ∀ args w3,
          function.outcome M σ.vars.length args σ2 w3 = function.outcome M a args σ w3 ∧
          (function.outcome M a args σ w3).isSome = true)) ∧
    (∀ b fb, σ.var b = some fb → b ≠ a →
      ∃ σ1, function.copy_assign M b a σ = some σ1 ∧
        (∀ p q, σ1.var a = some ⟨some p⟩ → σ1.var b = some ⟨some q⟩ →
          p ≠ q ∧ ∀ x, x ∈ σ1.heap.footprint p → x ∉ σ1.heap.footprint q) ∧
        (∀ (ops : List (Op Ty V A)) σ2 w w2, (∀ op, op ∈ ops → op.modifies a = false) →
          Op.run_all M ops σ1 w = some (σ2, w2) →
          ∀ args w3, function.outcome M a args σ2 w3 = function.outcome M a args σ w3 ∧
            (function.outcome M a args σ w3).isSome = true) ∧
        (∀ (ops : List (Op Ty V A)) σ2 w w2, (∀ op, op ∈ ops → op.modifies b = false) →
          Op.run_all M ops σ1 w = some (σ2, w2) →
          ∀ args w3, function.outcome M b args σ2 w3 = function.outcome M a args σ w3 ∧
            (function.outcome M a args σ w3).isSome = true)) := by
  have hal := State.var_lt ha
  constructor
  · obtain ⟨σ1, hc, hwf1, hvar, hheld, hnew, hj, -⟩ := function.copy_ctor_spec hwf ha
    exact ⟨σ1, hc, function.copy_independent hwf hwf1 ha (Nat.ne_of_lt hal)
      (hvar a (Nat.ne_of_lt hal)) (hheld a (Nat.ne_of_lt hal)) (by rw [hj]; rfl) hnew⟩
  · intro b fb hb hba
    obtain ⟨σ1, hc, hwf1, hvar, hheld, hnew, hj, -⟩ := function.copy_assign_spec hwf hb ha hba
    exact ⟨σ1, hc, function.copy_independent hwf hwf1 ha (Ne.symm hba)
      (hvar a (Ne.symm hba)) (hheld a (Ne.symm hba)) (by rw [hj]; rfl) hnew⟩

end claims4

/-- C4 at the container holding `Tally{5}`: the copy constructor puts the copy in the next
variable, and it holds `Tally{5}` too. -/
theorem C4_witness :
    exTally.var 0 = some ⟨some 0⟩ ∧
    function.copy_assign exEnv 0 0 exTally = some exTally ∧
    ∃ σ1, function.copy_ctor exEnv 0 exTally = some (1, σ1) ∧
      function.held exEnv 1 σ1 = function.held exEnv 0 exTally :=
  ⟨rfl, (C4_copy exEnv exTally exTally_WF 0 ⟨some 0⟩ rfl).2.2,
    (C4_copy exEnv exTally exTally_WF 0 ⟨some 0⟩ rfl).1.imp
      (fun _ h => ⟨h.1, h.2.2.2.1⟩)⟩

/-- C5 at the container holding `Tally{5}`. -/
theorem C5_witness :
    exTally.var 0 = some ⟨some 0⟩ ∧
    ∃ σ1 σ2, function.move_ctor 0 exTally = some (1, σ1) ∧
      σ1.var 1 = some ⟨some 0⟩ ∧ σ1.var 0 = some ⟨none⟩ ∧ σ1.heap = exTally.heap ∧
      function.dtor exEnv 0 σ1 = some σ2 ∧ σ2.heap = σ1.heap :=
  ⟨rfl, (C5_move_ctor exEnv exTally 0 ⟨some 0⟩ rfl).imp (fun _ h1 => h1.imp
    (fun _ h => ⟨h.1, h.2.1, h.2.2.1, h.2.2.2.1, h.2.2.2.2.2.2.2.2.2.1,
      h.2.2.2.2.2.2.2.2.2.2.1⟩))⟩

/-- C6 with an empty destination and the container holding `Tally{5}` as the source: the
source is left empty, the destination holds the caller. -/
theorem C6_witness :
    exTallyEmpty.var 1 = some ⟨none⟩ ∧ exTallyEmpty.var 0 = some ⟨some 0⟩ ∧
    ∃ σ1, function.move_assign 1 0 exTallyEmpty = some σ1 ∧
      σ1.var 1 = some ⟨some 0⟩ ∧ σ1.var 0 = some ⟨none⟩ ∧ σ1.heap = exTallyEmpty.heap :=
  ⟨rfl, rfl, (C6_move_assign_swaps exEnv exTallyEmpty 1 0 ⟨none⟩ ⟨some 0⟩ rfl rfl).imp
    (fun _ h => ⟨h.1, h.2.1, h.2.2.1, h.2.2.2.2.1⟩)⟩

/-- C7 at the container holding `Tally{5}`: after copying it, invoking the copy twice and
destroying the copy, an invocation of the original has the outcome it had at the start. -/
theorem C7_witness :
    exTally.var 0 = some ⟨some 0⟩ ∧
    function.copy_ctor exEnv 0 exTally = some (1, exTallyCopy) ∧
    Op.run_all exEnv [.call 1 7, .call 1 2, .dtor 1] exTallyCopy 0 =
      some (exTallyCopyGone, 2) ∧
    function.outcome exEnv 0 3 exTallyCopyGone 2 = function.outcome exEnv 0 3 exTally 2 ∧
    function.outcome exEnv 0 3 exTally 2 = some (.ok 8, 3) :=
  ⟨rfl, rfl, rfl, by
    obtain ⟨σ1, hc, -, hA, -⟩ :=
      (C7_deep_copy_independence exEnv exTally exTally_WF 0 ⟨some 0⟩ rfl).1
    have h1 : some (1, exTallyCopy) = some (exTally.vars.length, σ1) := hc
    simp only [Option.some.injEq, Prod.mk.injEq] at h1
    obtain ⟨-, rfl⟩ := h1
    exact (hA [.call 1 7, .call 1 2, .dtor 1] exTallyCopyGone 0 2 (by decide) rfl 3 2).1,
    rfl⟩

/-- C9 (evaluation of the code at the failing input): with an eight-byte, eight-byte aligned
cell, a function pointer meets the specified eligibility test, yet `fits_storage` is false
for it, and a container constructed from one keeps it behind a heap pointer. -/
theorem C9_fn_ptr_not_inline :
    detail.inline_eligible_spec 8 8 fn_ptr_lp64 = true ∧
    detail.fits_storage 8 8 fn_ptr_lp64 = false ∧
    exTraits .FnPtr = fn_ptr_lp64 ∧
    (function.ctor exEnv .FnPtr 0 State.empty).map (fun x => x.2.heap.mem) =
      some [some (.caller .FnPtr (.pointer 1)), some (.functor .FnPtr 0)] := by
  decide

/-- C10: for a cell whose alignment is a power of two (as every alignment value is) and a
type `T` whose alignment is a power of two, `fits_storage` as written being true implies
`sizeof(T) ≤ SizeOfStorage` and `alignof(T)` divides `AlignOfStorage`; and among the types
that meet the specified test, those the written test rejects are exactly those with
`alignof(T) = AlignOfStorage`.  That the size of `T` is a positive multiple of its
alignment is not needed. -/
theorem C10_fits_storage_safe (SizeOfStorage AlignOfStorage : Nat) (T : TypeTraits)
    (hA : ∃ k, AlignOfStorage = 2 ^ k) (hT : ∃ j, T.alignof = 2 ^ j) :
    (detail.fits_storage SizeOfStorage AlignOfStorage T = true →
        T.sizeof ≤ SizeOfStorage ∧ T.alignof ∣ AlignOfStorage) ∧
      (detail.inline_eligible_spec SizeOfStorage AlignOfStorage T = true →
        (detail.fits_storage SizeOfStorage AlignOfStorage T = false ↔
          T.alignof = AlignOfStorage)) := by
  obtain ⟨k, hk⟩ := hA
  obtain ⟨j, hj⟩ := hT
  constructor
  · intro h
    simp only [detail.fits_storage, Bool.and_eq_true, decide_eq_true_eq] at h
    obtain ⟨⟨h1, h2⟩, _⟩ := h
    refine ⟨h1, ?_⟩
    rw [hk, hj] at *
    by_cases hjk : j ≤ k
    · exact pow_dvd_pow 2 hjk
    · exact absurd (Nat.mod_eq_zero_of_dvd (pow_dvd_pow 2 (by omega : k ≤ j))) h2
  · intro h
    simp only [detail.inline_eligible_spec, Bool.and_eq_true, decide_eq_true_eq] at h
    obtain ⟨⟨h1, h2⟩, h3⟩ := h
    have hdvd : T.alignof ∣ AlignOfStorage := Nat.dvd_of_mod_eq_zero h2
    constructor
    · intro hf
      have hz : T.alignof % AlignOfStorage = 0 := by
        by_contra hne
        simp [detail.fits_storage, h1, h3, hne] at hf
      exact Nat.dvd_antisymm hdvd (Nat.dvd_of_mod_eq_zero hz)
    · intro he
      simp [detail.fits_storage, he]

/-- C10 at an `int`-sized callable in an eight-byte cell. -/
theorem C10_fits_storage_safe_witness :
    (detail.fits_storage 8 8 ⟨4, 4, true⟩ = true → 4 ≤ 8 ∧ 4 ∣ 8) ∧
      (detail.inline_eligible_spec 8 8 ⟨4, 4, true⟩ = true →
        (detail.fits_storage 8 8 ⟨4, 4, true⟩ = false ↔ 4 = 8)) :=
  C10_fits_storage_safe 8 8 ⟨4, 4, true⟩ ⟨3, by decide⟩ ⟨2, by decide⟩
